import Mathlib

/-!
# Verification of the staticpedia core against its specification

This development shallowly embeds the core of the `staticpedia` repository:

* `src/src/render.rs` — the HTML escaper (`html_escape` and `Render for str`);
* `src/src/site.rs` — the document tree (`Directory::get`, `Directory::get_mut`,
  `Directory::insert`, the `Pages` iterator);
* `src/macros/src/ast/{inline,location,blocking,page,rust}.rs` — the
  recursive-descent parser over `syn` token streams.

Rust strings are modelled as `List Char`, `syn` token streams as `List Tok`
(a token tree list), `HashMap` as an association list whose keys stay unique
because all insertions go through a vacancy check, and panics / `syn::Error`
as `Except String`.
-/

/-! ## HTML escaping (src/src/render.rs) -/

/-- Embeds `html_escape` (render.rs lines 4–14): the escape table. -/
def html_escape (ch : Char) : Option String :=
  match ch with
  | '&' => some "&amp;"
  | '<' => some "&lt;"
  | '>' => some "&gt;"
  | '"' => some "&quot;"
  | '\'' => some "&#39;"
  | '\\' => some "&#92;"
  | _ => none

/-- Embeds the iterator `self.char_indices().filter_map(|(i, ch)| html_escape(ch).map(|s| (i, s)))`
from `Render for str` (render.rs lines 92–95).  The source indexes by UTF-8
byte offset; we index by character position.  This reindexing is faithful
because every escaped character is a single byte (and a single char), so the
`start = end + 1` step and every slice boundary of the source line up with
character positions. -/
def escapesFrom (i : Nat) : List Char → List (Nat × String)
  | [] => []
  | c :: cs =>
    match html_escape c with
    | some e => (i, e) :: escapesFrom (i + 1) cs
    | none => escapesFrom (i + 1) cs

/-- Embeds the `for (end, escape) in iter` loop plus the trailing
`fmt.write_str(&self[start ..])` of `Render for str` (render.rs lines 97–104):
`s[start .. iend]` is written before each escape string, then `start`
becomes `iend + 1`. -/
def writeEscaped (s : List Char) : Nat → List (Nat × String) → List Char
  | start, [] => s.drop start
  | start, (iend, esc) :: rest =>
    ((s.drop start).take (iend - start)) ++ esc.data ++ writeEscaped s (iend + 1) rest

/-- Embeds `<str as Render>::to_html` (render.rs lines 90–106) as a whole:
the single left-to-right escaping pass over a string. -/
def strToHtml (s : List Char) : List Char :=
  writeEscaped s 0 (escapesFrom 0 s)

/-- The specification's escape table for one character (spec §4.3): the entity
for each of the six special characters, the character itself otherwise. -/
def escapeSpecChar : Char → List Char
  | '&' => "&amp;".data
  | '<' => "&lt;".data
  | '>' => "&gt;".data
  | '"' => "&quot;".data
  | '\'' => "&#39;".data
  | '\\' => "&#92;".data
  | c => [c]

/-- The specification's description of escaping (spec §4.3): substitute the
entity for each of the six special characters, copy every other character
verbatim, concatenating left to right in a single pass. -/
def escapeSpec : List Char → List Char
  | [] => []
  | c :: cs => escapeSpecChar c ++ escapeSpec cs

theorem escapeSpecChar_esc (c : Char) (e : String) (hc : html_escape c = some e) :
    escapeSpecChar c = e.data := by
  unfold html_escape at hc
  split at hc <;>
    first
      | (injection hc with h; subst h; rfl)
      | (exact Option.noConfusion hc)

theorem escapeSpecChar_plain (c : Char) (hc : html_escape c = none) :
    escapeSpecChar c = [c] := by
  unfold html_escape at hc
  split at hc
  all_goals simp_all
  unfold escapeSpecChar
  split <;> simp_all

theorem html_escape_ne_amp (c : Char) (hc : html_escape c = none) : c ≠ '&' := by
  intro h
  subst h
  simp [html_escape] at hc

/-- The invariant of the writing loop in `Render for str`: `start` is the
position just past the last escape written, the scan has reached position `k`,
no character in `s[start..k)` needs escaping (they are pending copy), and the
remaining characters are `cs`. -/
theorem writeEscaped_spec (cs : List Char) :
    ∀ (s : List Char) (start k : Nat), start ≤ k → s.drop k = cs →
      writeEscaped s start (escapesFrom k cs) =
        (s.drop start).take (k - start) ++ escapeSpec cs := by
  induction cs with
  | nil =>
    intro s start k hsk hdrop
    rw [escapesFrom, writeEscaped, escapeSpec, List.append_nil,
      List.take_of_length_le]
    rw [List.drop_eq_nil_iff_le] at hdrop
    rw [List.length_drop]
    omega
  | cons c cs ih =>
    intro s start k hsk hdrop
    have hk : s[k]? = some c := by
      have h0 : (s.drop k)[0]? = some c := by rw [hdrop]; simp
      rwa [List.getElem?_drop, Nat.add_zero] at h0
    have hdrop' : s.drop (k + 1) = cs := by
      have h1 : (s.drop k).drop 1 = cs := by rw [hdrop]; rfl
      rwa [List.drop_drop] at h1
    cases hc : html_escape c with
    | some e =>
      rw [escapesFrom, hc, writeEscaped, ih s (k + 1) (k + 1) le_rfl hdrop',
        Nat.sub_self, List.take_zero, List.nil_append, escapeSpec,
        escapeSpecChar_esc c e hc, List.append_assoc]
    | none =>
      rw [escapesFrom, hc, ih s start (k + 1) (Nat.le_succ_of_le hsk) hdrop',
        escapeSpec, escapeSpecChar_plain c hc]
      have hlt : k - start < (s.drop start).length := by
        rw [List.length_drop]
        have : k < s.length := by
          by_contra hkk
          rw [List.drop_eq_nil_of_le (by omega)] at hdrop
          exact List.noConfusion hdrop
        omega
      have hget : (s.drop start)[k - start]? = some c := by
        rw [List.getElem?_drop, show start + (k - start) = k from by omega]
        exact hk
      rw [show k + 1 - start = (k - start) + 1 from by omega, List.take_succ,
        hget]
      simp

/-- The code's escaping pass coincides with the specification's character-wise
table; shared by the escaping claims. -/
theorem strToHtml_eq_spec (s : List Char) : strToHtml s = escapeSpec s := by
  rw [strToHtml, writeEscaped_spec s s 0 0 le_rfl rfl]
  rfl

/-- The decoder of the round-trip property: replace each of the six entities
by its character, scanning left to right; all other characters copy. -/
def unescape : List Char → List Char
  | [] => []
  | c :: rest =>
    if c = '&' then
      match rest with
      | 'a' :: 'm' :: 'p' :: ';' :: r => '&' :: unescape r
      | 'l' :: 't' :: ';' :: r => '<' :: unescape r
      | 'g' :: 't' :: ';' :: r => '>' :: unescape r
      | 'q' :: 'u' :: 'o' :: 't' :: ';' :: r => '"' :: unescape r
      | '#' :: '3' :: '9' :: ';' :: r => '\'' :: unescape r
      | '#' :: '9' :: '2' :: ';' :: r => '\\' :: unescape r
      | r => '&' :: unescape r
    else c :: unescape rest

/-- Scanner for "no bare special characters": the six entities are skipped,
any other occurrence of one of the six special characters is bare. -/
def bareFree : List Char → Bool
  | [] => true
  | c :: rest =>
    if c = '&' then
      match rest with
      | '#' :: '3' :: '9' :: ';' :: r => bareFree r
      | '#' :: '9' :: '2' :: ';' :: r => bareFree r
      | 'a' :: 'm' :: 'p' :: ';' :: r => bareFree r
      | 'l' :: 't' :: ';' :: r => bareFree r
      | 'g' :: 't' :: ';' :: r => bareFree r
      | 'q' :: 'u' :: 'o' :: 't' :: ';' :: r => bareFree r
      | _ => false
    else
      !(c == '<' || c == '>' || c == '"' || c == '\'' || c == '\\')
        && bareFree rest

set_option maxHeartbeats 1000000 in
theorem unescape_plain (c : Char) (r : List Char) (h : c ≠ '&') :
    unescape (c :: r) = c :: unescape r := by
  rw [unescape.eq_def]
  dsimp only
  rw [if_neg h]

set_option maxHeartbeats 1000000 in
theorem bareFree_plain (c : Char) (r : List Char) (hc : html_escape c = none) :
    bareFree (c :: r) = bareFree r := by
  have h6 : c ≠ '&' ∧ c ≠ '<' ∧ c ≠ '>' ∧ c ≠ '"' ∧ c ≠ '\'' ∧ c ≠ '\\' := by
    unfold html_escape at hc
    split at hc <;> simp_all
  obtain ⟨h1, h2, h3, h4, h5, hb⟩ := h6
  rw [bareFree.eq_def]
  dsimp only
  rw [if_neg h1]
  simp [h2, h3, h4, h5, hb]

theorem unescape_amp (r : List Char) :
    unescape ("&amp;".data ++ r) = '&' :: unescape r := rfl

theorem unescape_lt (r : List Char) :
    unescape ("&lt;".data ++ r) = '<' :: unescape r := rfl

theorem unescape_gt (r : List Char) :
    unescape ("&gt;".data ++ r) = '>' :: unescape r := rfl

theorem unescape_quot (r : List Char) :
    unescape ("&quot;".data ++ r) = '"' :: unescape r := rfl

theorem unescape_apos (r : List Char) :
    unescape ("&#39;".data ++ r) = '\'' :: unescape r := rfl

theorem unescape_backslash (r : List Char) :
    unescape ("&#92;".data ++ r) = '\\' :: unescape r := rfl

theorem bareFree_amp (r : List Char) :
    bareFree ("&amp;".data ++ r) = bareFree r := rfl

theorem bareFree_lt (r : List Char) :
    bareFree ("&lt;".data ++ r) = bareFree r := rfl

theorem bareFree_gt (r : List Char) :
    bareFree ("&gt;".data ++ r) = bareFree r := rfl

theorem bareFree_quot (r : List Char) :
    bareFree ("&quot;".data ++ r) = bareFree r := rfl

theorem bareFree_apos (r : List Char) :
    bareFree ("&#39;".data ++ r) = bareFree r := rfl

theorem bareFree_backslash (r : List Char) :
    bareFree ("&#92;".data ++ r) = bareFree r := rfl

theorem unescape_escapeSpec (s : List Char) :
    unescape (escapeSpec s) = s := by
  induction s with
  | nil => rfl
  | cons c cs ih =>
    rw [escapeSpec]
    cases hc : html_escape c with
    | some e =>
      revert hc
      unfold html_escape
      split <;> intro hc
      case h_7 => exact Option.noConfusion hc
      all_goals injection hc with h
      all_goals subst h
      all_goals try rw [escapeSpecChar]
      all_goals first
        | rw [unescape_amp, ih]
        | rw [unescape_lt, ih]
        | rw [unescape_gt, ih]
        | rw [unescape_quot, ih]
        | rw [unescape_apos, ih]
        | rw [unescape_backslash, ih]
    | none =>
      rw [escapeSpecChar_plain c hc, List.singleton_append,
        unescape_plain c _ (html_escape_ne_amp c hc), ih]

theorem bareFree_escapeSpec (s : List Char) :
    bareFree (escapeSpec s) = true := by
  induction s with
  | nil => rfl
  | cons c cs ih =>
    rw [escapeSpec]
    cases hc : html_escape c with
    | some e =>
      revert hc
      unfold html_escape
      split <;> intro hc
      case h_7 => exact Option.noConfusion hc
      all_goals injection hc with h
      all_goals subst h
      all_goals try rw [escapeSpecChar]
      all_goals first
        | rw [bareFree_amp, ih]
        | rw [bareFree_lt, ih]
        | rw [bareFree_gt, ih]
        | rw [bareFree_quot, ih]
        | rw [bareFree_apos, ih]
        | rw [bareFree_backslash, ih]
    | none =>
      rw [escapeSpecChar_plain c hc, List.singleton_append,
        bareFree_plain c _ hc, ih]

/-- C2: for every string `s`, `escape(s)` equals the left-to-right
concatenation over the characters of `s` of the entity for each of the six
special characters and the character itself otherwise; the output is produced
in one pass, so already-emitted output is never re-scanned or re-escaped. -/
theorem escape_is_single_pass_table (s : List Char) : strToHtml s = escapeSpec s :=
  strToHtml_eq_spec s

/-- C3: for every string `s`, `escape(s)` contains none of the six special
characters bare (every `&` in the output opens one of the six entities, and
`<`, `>`, `"`, `'`, `\` do not occur at all), and decoding the six entities
recovers `s` exactly. -/
theorem escape_bare_free_and_round_trip (s : List Char) :
    bareFree (strToHtml s) = true ∧ unescape (strToHtml s) = s := by
  rw [strToHtml_eq_spec]
  exact ⟨bareFree_escapeSpec s, unescape_escapeSpec s⟩

/-! ## The document tree (src/src/site.rs) -/

/-- Modelled from the spec: `Fragment` lives in the crate's `location` module,
which is not under src/ (site.rs only imports it).  Per spec §3 it is "one
non-empty path segment, hashable/equatable key"; only its equality matters to
the tree operations, so it is modelled as a string. -/
abbrev Fragment := String

/-- Modelled from the spec: `InternalPath` lives in the missing `location`
module.  Per spec §3: "ordered sequence of Fragments, root = empty
sequence". -/
structure InternalPath where
  fragments : List Fragment
deriving DecidableEq

/-- `InternalPath::root()`: the empty sequence. -/
def InternalPath.root : InternalPath := ⟨[]⟩

/-- Modelled from the spec: `Page` lives in the crate's `page` module, which is
not under src/.  The tree operations treat pages as opaque payloads, so only
an identity is kept. -/
structure Page where
  payload : Nat
deriving DecidableEq

mutual
/-- Embeds `Node` (site.rs lines 18–24) at its default parameters
`Node<Page, Directory>`. -/
inductive Node where
  | page (p : Page)
  | directory (d : Directory)
/-- Embeds `Directory` (site.rs lines 113–116).  The `HashMap` is modelled as
an association list; all insertions go through a vacancy check, so keys stay
unique and first-match lookup agrees with the map. -/
inductive Directory where
  | mk (contents : List (Fragment × Node))
end

def Directory.contents : Directory → List (Fragment × Node)
  | .mk l => l

/-- `HashMap::get` on the association list. -/
def contentsGet : List (Fragment × Node) → Fragment → Option Node
  | [], _ => none
  | (k, v) :: rest, f => if k = f then some v else contentsGet rest f

/-- In-place update of the value at an existing key: the effect of mutating
through the reference returned by `HashMap::entry` for an occupied entry. -/
def contentsSet : List (Fragment × Node) → Fragment → Node → List (Fragment × Node)
  | [], _, _ => []
  | (k, v) :: rest, f, n =>
    if k = f then (k, n) :: rest else (k, v) :: contentsSet rest f n

/-- The walk of `Directory::get` (site.rs lines 121–135): the loop keeps the
pending final fragment in `last` and descends into a directory for each
earlier fragment; an empty path leaves `last` as `None`, so lookup fails. -/
def Directory.getList : Directory → List Fragment → Option Node
  | _, [] => none
  | dir, [f] => contentsGet dir.contents f
  | dir, f :: rest =>
    match contentsGet dir.contents f with
    | some (Node.directory d) => Directory.getList d rest
    | _ => none

/-- Embeds `Directory::get` (site.rs lines 121–135). -/
def Directory.get (dir : Directory) (path : InternalPath) : Option Node :=
  Directory.getList dir path.fragments

/-- The walk of `Directory::get_mut` (site.rs lines 139–156); it repeats
`Directory::get`'s walk verbatim, only with mutable references. -/
def Directory.getMutList : Directory → List Fragment → Option Node
  | _, [] => none
  | dir, [f] => contentsGet dir.contents f
  | dir, f :: rest =>
    match contentsGet dir.contents f with
    | some (Node.directory d) => Directory.getMutList d rest
    | _ => none

/-- Embeds `Directory::get_mut` (site.rs lines 139–156); in the pure model the
returned mutable reference is the node itself. -/
def Directory.get_mut (dir : Directory) (path : InternalPath) : Option Node :=
  Directory.getMutList dir path.fragments

/-- Embeds the walk of `Directory::insert` (site.rs lines 160–185).  For each
non-final fragment, `entry(..).or_insert_with(Directory::default)` finds or
creates an intermediate directory; an existing page there panics
("Must be a directory").  An empty path panics ("Cannot insert at root"); an
occupied final slot panics ("Cannot insert if already occupied").  Panics are
modelled as `Except.error` with the panic message; a fresh key appends its
entry to the association list (position in the map is irrelevant). -/
def Directory.insertList : Directory → List Fragment → Node → Except String Directory
  | _, [], _ => .error "Cannot insert at root"
  | dir, [f], node =>
    match contentsGet dir.contents f with
    | some _ => .error "Cannot insert if already occupied"
    | none => .ok (.mk (dir.contents ++ [(f, node)]))
  | dir, f :: rest, node =>
    match contentsGet dir.contents f with
    | some (Node.directory d) =>
      match Directory.insertList d rest node with
      | .ok d' => .ok (.mk (contentsSet dir.contents f (Node.directory d')))
      | .error e => .error e
    | some (Node.page _) => .error "Must be a directory"
    | none =>
      match Directory.insertList (Directory.mk []) rest node with
      | .ok d' => .ok (.mk (dir.contents ++ [(f, Node.directory d')]))
      | .error e => .error e

/-- Embeds `Directory::insert` (site.rs lines 160–185). -/
def Directory.insert (dir : Directory) (path : InternalPath) (node : Node) :
    Except String Directory :=
  Directory.insertList dir path.fragments node

theorem contentsGet_append_self (xs : List (Fragment × Node)) (f : Fragment)
    (n : Node) (h : contentsGet xs f = none) :
    contentsGet (xs ++ [(f, n)]) f = some n := by
  induction xs with
  | nil => simp [contentsGet]
  | cons kv rest ih =>
    obtain ⟨k, v⟩ := kv
    by_cases hk : k = f
    · exfalso
      rw [contentsGet, if_pos hk] at h
      exact Option.noConfusion h
    · rw [contentsGet, if_neg hk] at h
      rw [List.cons_append, contentsGet, if_neg hk]
      exact ih h

theorem contentsGet_append_other (xs : List (Fragment × Node)) (f g : Fragment)
    (n : Node) (h : g ≠ f) :
    contentsGet (xs ++ [(f, n)]) g = contentsGet xs g := by
  induction xs with
  | nil =>
    have hfg : ¬ f = g := fun hh => h (Eq.symm hh)
    simp [contentsGet, hfg]
  | cons kv rest ih =>
    obtain ⟨k, v⟩ := kv
    by_cases hk : k = g
    · rw [List.cons_append, contentsGet, if_pos hk, contentsGet, if_pos hk]
    · rw [List.cons_append, contentsGet, if_neg hk, contentsGet, if_neg hk]
      exact ih

theorem contentsGet_set_self (xs : List (Fragment × Node)) (f : Fragment)
    (n : Node) (v : Node) (h : contentsGet xs f = some v) :
    contentsGet (contentsSet xs f n) f = some n := by
  induction xs with
  | nil => exact Option.noConfusion h
  | cons kv rest ih =>
    obtain ⟨k, w⟩ := kv
    by_cases hk : k = f
    · rw [contentsSet, if_pos hk, contentsGet, if_pos hk]
    · rw [contentsGet, if_neg hk] at h
      rw [contentsSet, if_neg hk, contentsGet, if_neg hk]
      exact ih h

theorem contentsGet_set_other (xs : List (Fragment × Node)) (f g : Fragment)
    (n : Node) (h : g ≠ f) :
    contentsGet (contentsSet xs f n) g = contentsGet xs g := by
  induction xs with
  | nil => rfl
  | cons kv rest ih =>
    obtain ⟨k, w⟩ := kv
    by_cases hk : k = f
    · have hkg : ¬ k = g := by
        intro hh
        rw [← hh] at h
        exact h hk
      rw [contentsSet, if_pos hk, contentsGet, if_neg hkg, contentsGet, if_neg hkg]
    · by_cases hg : k = g
      · rw [contentsSet, if_neg hk, contentsGet, if_pos hg, contentsGet, if_pos hg]
      · rw [contentsSet, if_neg hk, contentsGet, if_neg hg, contentsGet, if_neg hg]
        exact ih

theorem getList_empty (q : List Fragment) :
    Directory.getList (Directory.mk []) q = none := by
  cases q with
  | nil => rfl
  | cons f rest =>
    cases rest with
    | nil => rfl
    | cons g rest' => rfl

theorem getList_cons_none (d : Directory) (f : Fragment) (rest : List Fragment)
    (h : contentsGet d.contents f = none) :
    Directory.getList d (f :: rest) = none := by
  cases rest with
  | nil => rw [Directory.getList]; exact h
  | cons g rest' =>
    show (match contentsGet d.contents f with
          | some (Node.directory dd) => Directory.getList dd (g :: rest')
          | _ => none) = none
    rw [h]

theorem insertList_nil (d : Directory) (n : Node) :
    Directory.insertList d [] n = .error "Cannot insert at root" := rfl

theorem insertList_one_occ (d : Directory) (f : Fragment) (n v : Node)
    (hg : contentsGet d.contents f = some v) :
    Directory.insertList d [f] n = .error "Cannot insert if already occupied" := by
  show (match contentsGet d.contents f with
        | some _ => (.error "Cannot insert if already occupied" : Except String Directory)
        | none => .ok (.mk (d.contents ++ [(f, n)]))) = _
  rw [hg]

theorem insertList_one_vac (d : Directory) (f : Fragment) (n : Node)
    (hg : contentsGet d.contents f = none) :
    Directory.insertList d [f] n = .ok (.mk (d.contents ++ [(f, n)])) := by
  show (match contentsGet d.contents f with
        | some _ => (.error "Cannot insert if already occupied" : Except String Directory)
        | none => .ok (.mk (d.contents ++ [(f, n)]))) = _
  rw [hg]

theorem insertList_cons_page (d : Directory) (f g : Fragment) (rest : List Fragment)
    (n : Node) (pg : Page) (hg : contentsGet d.contents f = some (.page pg)) :
    Directory.insertList d (f :: g :: rest) n = .error "Must be a directory" := by
  show (match contentsGet d.contents f with
        | some (Node.directory dd) =>
          (match Directory.insertList dd (g :: rest) n with
           | .ok d' => (.ok (.mk (contentsSet d.contents f (Node.directory d'))) :
               Except String Directory)
           | .error e => .error e)
        | some (Node.page _) => .error "Must be a directory"
        | none =>
          (match Directory.insertList (Directory.mk []) (g :: rest) n with
           | .ok d' => .ok (.mk (d.contents ++ [(f, Node.directory d')]))
           | .error e => .error e)) = _
  rw [hg]

theorem insertList_cons_dir_ok (d dd dd' : Directory) (f g : Fragment)
    (rest : List Fragment) (n : Node)
    (hg : contentsGet d.contents f = some (.directory dd))
    (hi : Directory.insertList dd (g :: rest) n = .ok dd') :
    Directory.insertList d (f :: g :: rest) n =
      .ok (.mk (contentsSet d.contents f (Node.directory dd'))) := by
  show (match contentsGet d.contents f with
        | some (Node.directory dd) =>
          (match Directory.insertList dd (g :: rest) n with
           | .ok d' => (.ok (.mk (contentsSet d.contents f (Node.directory d'))) :
               Except String Directory)
           | .error e => .error e)
        | some (Node.page _) => .error "Must be a directory"
        | none =>
          (match Directory.insertList (Directory.mk []) (g :: rest) n with
           | .ok d' => .ok (.mk (d.contents ++ [(f, Node.directory d')]))
           | .error e => .error e)) = _
  rw [hg]
  show (match Directory.insertList dd (g :: rest) n with
        | .ok d' => (.ok (.mk (contentsSet d.contents f (Node.directory d'))) :
            Except String Directory)
        | .error e => .error e) = _
  rw [hi]

theorem insertList_cons_dir_err (d dd : Directory) (f g : Fragment)
    (rest : List Fragment) (n : Node) (e : String)
    (hg : contentsGet d.contents f = some (.directory dd))
    (hi : Directory.insertList dd (g :: rest) n = .error e) :
    Directory.insertList d (f :: g :: rest) n = .error e := by
  show (match contentsGet d.contents f with
        | some (Node.directory dd) =>
          (match Directory.insertList dd (g :: rest) n with
           | .ok d' => (.ok (.mk (contentsSet d.contents f (Node.directory d'))) :
               Except String Directory)
           | .error e => .error e)
        | some (Node.page _) => .error "Must be a directory"
        | none =>
          (match Directory.insertList (Directory.mk []) (g :: rest) n with
           | .ok d' => .ok (.mk (d.contents ++ [(f, Node.directory d')]))
           | .error e => .error e)) = _
  rw [hg]
  show (match Directory.insertList dd (g :: rest) n with
        | .ok d' => (.ok (.mk (contentsSet d.contents f (Node.directory d'))) :
            Except String Directory)
        | .error e => .error e) = _
  rw [hi]

theorem insertList_cons_vac_ok (d dd' : Directory) (f g : Fragment)
    (rest : List Fragment) (n : Node)
    (hg : contentsGet d.contents f = none)
    (hi : Directory.insertList (Directory.mk []) (g :: rest) n = .ok dd') :
    Directory.insertList d (f :: g :: rest) n =
      .ok (.mk (d.contents ++ [(f, Node.directory dd')])) := by
  show (match contentsGet d.contents f with
        | some (Node.directory dd) =>
          (match Directory.insertList dd (g :: rest) n with
           | .ok d' => (.ok (.mk (contentsSet d.contents f (Node.directory d'))) :
               Except String Directory)
           | .error e => .error e)
        | some (Node.page _) => .error "Must be a directory"
        | none =>
          (match Directory.insertList (Directory.mk []) (g :: rest) n with
           | .ok d' => .ok (.mk (d.contents ++ [(f, Node.directory d')]))
           | .error e => .error e)) = _
  rw [hg, hi]

theorem insertList_cons_vac_err (d : Directory) (f g : Fragment)
    (rest : List Fragment) (n : Node) (e : String)
    (hg : contentsGet d.contents f = none)
    (hi : Directory.insertList (Directory.mk []) (g :: rest) n = .error e) :
    Directory.insertList d (f :: g :: rest) n = .error e := by
  show (match contentsGet d.contents f with
        | some (Node.directory dd) =>
          (match Directory.insertList dd (g :: rest) n with
           | .ok d' => (.ok (.mk (contentsSet d.contents f (Node.directory d'))) :
               Except String Directory)
           | .error e => .error e)
        | some (Node.page _) => .error "Must be a directory"
        | none =>
          (match Directory.insertList (Directory.mk []) (g :: rest) n with
           | .ok d' => .ok (.mk (d.contents ++ [(f, Node.directory d')]))
           | .error e => .error e)) = _
  rw [hg, hi]

theorem getList_one (d : Directory) (f : Fragment) :
    Directory.getList d [f] = contentsGet d.contents f := rfl

theorem getList_cons2_dir (d dd : Directory) (f g : Fragment) (rest : List Fragment)
    (hg : contentsGet d.contents f = some (.directory dd)) :
    Directory.getList d (f :: g :: rest) = Directory.getList dd (g :: rest) := by
  show (match contentsGet d.contents f with
        | some (Node.directory dd) => Directory.getList dd (g :: rest)
        | _ => none) = _
  rw [hg]

theorem getList_cons2_page (d : Directory) (f g : Fragment) (rest : List Fragment)
    (pg : Page) (hg : contentsGet d.contents f = some (.page pg)) :
    Directory.getList d (f :: g :: rest) = none := by
  show (match contentsGet d.contents f with
        | some (Node.directory dd) => Directory.getList dd (g :: rest)
        | _ => none) = _
  rw [hg]

/-- Inserting at `p` and reading back at `p` returns the inserted node. -/
theorem insertList_get (p : List Fragment) :
    ∀ (d d' : Directory) (n : Node),
      Directory.insertList d p n = .ok d' → Directory.getList d' p = some n := by
  induction p with
  | nil =>
    intro d d' n h
    rw [insertList_nil] at h
    exact Except.noConfusion h
  | cons f rest ih =>
    intro d d' n h
    cases rest with
    | nil =>
      cases hg : contentsGet d.contents f with
      | some v =>
        rw [insertList_one_occ d f n v hg] at h
        exact Except.noConfusion h
      | none =>
        rw [insertList_one_vac d f n hg] at h
        injection h with h'
        subst h'
        rw [getList_one]
        exact contentsGet_append_self _ _ _ hg
    | cons g rest' =>
      cases hg : contentsGet d.contents f with
      | some v =>
        cases v with
        | page pg =>
          rw [insertList_cons_page d f g rest' n pg hg] at h
          exact Except.noConfusion h
        | directory dd =>
          cases hi : Directory.insertList dd (g :: rest') n with
          | error e =>
            rw [insertList_cons_dir_err d dd f g rest' n e hg hi] at h
            exact Except.noConfusion h
          | ok dd' =>
            rw [insertList_cons_dir_ok d dd dd' f g rest' n hg hi] at h
            injection h with h'
            subst h'
            rw [getList_cons2_dir
              (Directory.mk (contentsSet d.contents f (Node.directory dd'))) dd'
              f g rest'
              (contentsGet_set_self d.contents f (Node.directory dd')
                (Node.directory dd) hg)]
            exact ih dd dd' n hi
      | none =>
        cases hi : Directory.insertList (Directory.mk []) (g :: rest') n with
        | error e =>
          rw [insertList_cons_vac_err d f g rest' n e hg hi] at h
          exact Except.noConfusion h
        | ok dd' =>
          rw [insertList_cons_vac_ok d dd' f g rest' n hg hi] at h
          injection h with h'
          subst h'
          rw [getList_cons2_dir
            (Directory.mk (d.contents ++ [(f, Node.directory dd')])) dd' f g rest'
            (contentsGet_append_self d.contents f (Node.directory dd') hg)]
          exact ih _ dd' n hi

theorem getList_cons_congr (d1 d2 : Directory) (g : Fragment) (q' : List Fragment)
    (h : contentsGet d1.contents g = contentsGet d2.contents g) :
    Directory.getList d1 (g :: q') = Directory.getList d2 (g :: q') := by
  cases q' with
  | nil => rw [getList_one, getList_one, h]
  | cons a b =>
    show (match contentsGet d1.contents g with
          | some (Node.directory dd) => Directory.getList dd (a :: b)
          | _ => none) =
         (match contentsGet d2.contents g with
          | some (Node.directory dd) => Directory.getList dd (a :: b)
          | _ => none)
    rw [h]

/-- Inserting at `p` leaves every path incomparable with `p` unchanged. -/
theorem insertList_frame (p : List Fragment) :
    ∀ (d d' : Directory) (n : Node) (q : List Fragment),
      Directory.insertList d p n = .ok d' →
      ¬ q <+: p → ¬ p <+: q →
      Directory.getList d' q = Directory.getList d q := by
  induction p with
  | nil =>
    intro d d' n q h _ _
    rw [insertList_nil] at h
    exact Except.noConfusion h
  | cons f rest ih =>
    intro d d' n q h hqp hpq
    cases rest with
    | nil =>
      cases hg : contentsGet d.contents f with
      | some v =>
        rw [insertList_one_occ d f n v hg] at h
        exact Except.noConfusion h
      | none =>
        rw [insertList_one_vac d f n hg] at h
        injection h with h'
        subst h'
        cases q with
        | nil => exact absurd List.nil_prefix hqp
        | cons a q' =>
          by_cases haf : a = f
          · subst haf
            cases q' with
            | nil => exact ((hqp (List.prefix_refl [a])).elim)
            | cons b q'' =>
              exact absurd (List.cons_prefix_cons.mpr ⟨rfl, List.nil_prefix⟩) hpq
          · exact getList_cons_congr _ _ a q'
              (contentsGet_append_other d.contents f a n haf)
    | cons g rest' =>
      cases hg : contentsGet d.contents f with
      | some v =>
        cases v with
        | page pg =>
          rw [insertList_cons_page d f g rest' n pg hg] at h
          exact Except.noConfusion h
        | directory dd =>
          cases hi : Directory.insertList dd (g :: rest') n with
          | error e =>
            rw [insertList_cons_dir_err d dd f g rest' n e hg hi] at h
            exact Except.noConfusion h
          | ok dd' =>
            rw [insertList_cons_dir_ok d dd dd' f g rest' n hg hi] at h
            injection h with h'
            subst h'
            cases q with
            | nil => exact absurd List.nil_prefix hqp
            | cons a q' =>
              by_cases haf : a = f
              · subst haf
                cases q' with
                | nil =>
                  exact absurd
                    (List.cons_prefix_cons.mpr ⟨rfl, List.nil_prefix⟩) hqp
                | cons b q'' =>
                  rw [getList_cons2_dir
                    (Directory.mk (contentsSet d.contents a (Node.directory dd')))
                    dd' a b q''
                    (contentsGet_set_self d.contents a (Node.directory dd')
                      (Node.directory dd) hg),
                    getList_cons2_dir d dd a b q'' hg]
                  refine ih dd dd' n (b :: q'') hi ?_ ?_
                  · intro hh
                    exact hqp (List.cons_prefix_cons.mpr ⟨rfl, hh⟩)
                  · intro hh
                    exact hpq (List.cons_prefix_cons.mpr ⟨rfl, hh⟩)
              · exact getList_cons_congr _ _ a q'
                  (contentsGet_set_other d.contents f a (Node.directory dd') haf)
      | none =>
        cases hi : Directory.insertList (Directory.mk []) (g :: rest') n with
        | error e =>
          rw [insertList_cons_vac_err d f g rest' n e hg hi] at h
          exact Except.noConfusion h
        | ok dd' =>
          rw [insertList_cons_vac_ok d dd' f g rest' n hg hi] at h
          injection h with h'
          subst h'
          cases q with
          | nil => exact absurd List.nil_prefix hqp
          | cons a q' =>
            by_cases haf : a = f
            · subst haf
              cases q' with
              | nil =>
                exact absurd
                  (List.cons_prefix_cons.mpr ⟨rfl, List.nil_prefix⟩) hqp
              | cons b q'' =>
                rw [getList_cons2_dir
                  (Directory.mk (d.contents ++ [(a, Node.directory dd')]))
                  dd' a b q''
                  (contentsGet_append_self d.contents a (Node.directory dd') hg),
                  getList_cons_none d a (b :: q'') hg]
                rw [ih (Directory.mk []) dd' n (b :: q'') hi
                  (fun hh => hqp (List.cons_prefix_cons.mpr ⟨rfl, hh⟩))
                  (fun hh => hpq (List.cons_prefix_cons.mpr ⟨rfl, hh⟩))]
                exact getList_empty (b :: q'')
            · exact getList_cons_congr _ _ a q'
                (contentsGet_append_other d.contents f a (Node.directory dd') haf)

theorem prefix_singleton (q : List Fragment) (f : Fragment) (h : q <+: [f]) :
    q = [] ∨ q = [f] := by
  rcases List.prefix_cons_iff.mp h with h0 | ⟨t, rfl, ht⟩
  · exact Or.inl h0
  · rw [List.prefix_nil] at ht
    subst ht
    exact Or.inr rfl

/-- The "some non-final segment holds a page" condition transfers through the
first segment when it holds a directory. -/
theorem pagePrefix_shift (d dd : Directory) (f g : Fragment) (rest' : List Fragment)
    (hg : contentsGet d.contents f = some (.directory dd)) :
    (∃ q pg, q ≠ [] ∧ q <+: (f :: g :: rest') ∧ q ≠ (f :: g :: rest') ∧
       Directory.getList d q = some (.page pg)) ↔
    (∃ q pg, q ≠ [] ∧ q <+: (g :: rest') ∧ q ≠ (g :: rest') ∧
       Directory.getList dd q = some (.page pg)) := by
  constructor
  · rintro ⟨q, pg, hne, hpre, hneq, hget⟩
    rcases List.prefix_cons_iff.mp hpre with h0 | ⟨t, rfl, ht⟩
    · exact absurd h0 hne
    · cases t with
      | nil =>
        rw [getList_one, hg] at hget
        exact absurd (Option.some.inj hget) (fun hh => Node.noConfusion hh)
      | cons b t' =>
        rw [getList_cons2_dir d dd f b t' hg] at hget
        refine ⟨b :: t', pg, List.cons_ne_nil b t', ht, ?_, hget⟩
        intro hh
        exact hneq (by rw [hh])
  · rintro ⟨q, pg, hne, hpre, hneq, hget⟩
    cases q with
    | nil => exact absurd rfl hne
    | cons b q' =>
      refine ⟨f :: b :: q', pg, List.cons_ne_nil f (b :: q'),
        List.cons_prefix_cons.mpr ⟨rfl, hpre⟩, ?_, ?_⟩
      · intro hh
        injection hh with h1 h2
        exact hneq h2
      · rw [getList_cons2_dir d dd f b q' hg]
        exact hget

/-- C5's failure characterization at association-list level: insertion fails
exactly for the empty path, a page at a proper nonempty prefix, or an occupied
final slot. -/
theorem exceptIsOk_error {A : Type} (e : String) :
    (Except.error e : Except String A).isOk = false := rfl

theorem exceptIsOk_ok {A : Type} (a : A) :
    (Except.ok a : Except String A).isOk = true := rfl

theorem insertList_fails_iff (p : List Fragment) :
    ∀ (d : Directory) (n : Node),
      (Directory.insertList d p n).isOk = false ↔
        (p = [] ∨
         (∃ q pg, q ≠ [] ∧ q <+: p ∧ q ≠ p ∧
            Directory.getList d q = some (Node.page pg)) ∨
         (Directory.getList d p).isSome = true) := by
  induction p with
  | nil =>
    intro d n
    rw [insertList_nil]
    exact iff_of_true rfl (Or.inl rfl)
  | cons f rest ih =>
    intro d n
    cases rest with
    | nil =>
      cases hg : contentsGet d.contents f with
      | some v =>
        rw [insertList_one_occ d f n v hg]
        have hright : (Directory.getList d [f]).isSome = true := by
          rw [getList_one, hg]
          rfl
        exact iff_of_true rfl (Or.inr (Or.inr hright))
      | none =>
        rw [insertList_one_vac d f n hg]
        have hmid : ¬ (∃ q pg, q ≠ [] ∧ q <+: [f] ∧ q ≠ [f] ∧
            Directory.getList d q = some (Node.page pg)) := by
          rintro ⟨q, pg, hne, hpre, hneq, hget⟩
          rcases prefix_singleton q f hpre with h0 | h1
          · exact hne h0
          · exact hneq h1
        have hright : (Directory.getList d [f]).isSome = false := by
          rw [getList_one, hg]
          rfl
        refine iff_of_false ?_ ?_
        · intro hh
          rw [exceptIsOk_ok] at hh
          exact Bool.noConfusion hh
        · rintro (h0 | hm | hr)
          · exact List.noConfusion h0
          · exact hmid hm
          · rw [hright] at hr
            exact Bool.noConfusion hr
    | cons g rest' =>
      cases hg : contentsGet d.contents f with
      | some v =>
        cases v with
        | page pg =>
          rw [insertList_cons_page d f g rest' n pg hg]
          have hmid : ∃ q pg', q ≠ [] ∧ q <+: (f :: g :: rest') ∧
              q ≠ (f :: g :: rest') ∧
              Directory.getList d q = some (Node.page pg') := by
            refine ⟨[f], pg, List.cons_ne_nil f [],
              List.cons_prefix_cons.mpr ⟨rfl, List.nil_prefix⟩, ?_, ?_⟩
            · intro hh
              injection hh with h1 h2
              exact List.noConfusion h2
            · rw [getList_one]
              exact hg
          exact iff_of_true rfl (Or.inr (Or.inl hmid))
        | directory dd =>
          have hstep : (Directory.insertList d (f :: g :: rest') n).isOk =
              (Directory.insertList dd (g :: rest') n).isOk := by
            cases hi : Directory.insertList dd (g :: rest') n with
            | ok dd' =>
              rw [insertList_cons_dir_ok d dd dd' f g rest' n hg hi]
              rfl
            | error e =>
              rw [insertList_cons_dir_err d dd f g rest' n e hg hi]
          rw [hstep, ih dd n, pagePrefix_shift d dd f g rest' hg,
            getList_cons2_dir d dd f g rest' hg]
          simp
      | none =>
        have hstep : (Directory.insertList d (f :: g :: rest') n).isOk =
            (Directory.insertList (Directory.mk []) (g :: rest') n).isOk := by
          cases hi : Directory.insertList (Directory.mk []) (g :: rest') n with
          | ok dd' =>
            rw [insertList_cons_vac_ok d dd' f g rest' n hg hi]
            rfl
          | error e =>
            rw [insertList_cons_vac_err d f g rest' n e hg hi]
        have hleft : ¬ ((g :: rest' = []) ∨
            (∃ q pg, q ≠ [] ∧ q <+: (g :: rest') ∧ q ≠ (g :: rest') ∧
               Directory.getList (Directory.mk []) q = some (Node.page pg)) ∨
            (Directory.getList (Directory.mk []) (g :: rest')).isSome = true) := by
          rintro (h0 | ⟨q, pg, hne, hpre, hneq, hget⟩ | hs)
          · exact List.noConfusion h0
          · rw [getList_empty q] at hget
            exact Option.noConfusion hget
          · rw [getList_empty (g :: rest')] at hs
            exact Bool.noConfusion hs
        have hmid : ¬ (∃ q pg, q ≠ [] ∧ q <+: (f :: g :: rest') ∧
            q ≠ (f :: g :: rest') ∧
            Directory.getList d q = some (Node.page pg)) := by
          rintro ⟨q, pg, hne, hpre, hneq, hget⟩
          rcases List.prefix_cons_iff.mp hpre with h0 | ⟨t, rfl, ht⟩
          · exact hne h0
          · rw [getList_cons_none d f t hg] at hget
            exact Option.noConfusion hget
        have hright : (Directory.getList d (f :: g :: rest')).isSome = false := by
          rw [getList_cons_none d f (g :: rest') hg]
          rfl
        refine iff_of_false ?_ ?_
        · intro hh
          rw [hstep, ih (Directory.mk []) n] at hh
          exact hleft hh
        · rintro (h0 | hm | hr)
          · exact List.noConfusion h0
          · exact hmid hm
          · rw [hright] at hr
            exact Bool.noConfusion hr

/-- Inserting at `p` creates an intermediate directory at every nonempty proper
prefix of `p` that was previously absent. -/
theorem insertList_mkdir (p : List Fragment) :
    ∀ (d d' : Directory) (n : Node) (q : List Fragment),
      Directory.insertList d p n = .ok d' →
      q ≠ [] → q <+: p → q ≠ p →
      Directory.getList d q = none →
      ∃ dd, Directory.getList d' q = some (Node.directory dd) := by
  induction p with
  | nil =>
    intro d d' n q h _ _ _ _
    rw [insertList_nil] at h
    exact Except.noConfusion h
  | cons f rest ih =>
    intro d d' n q h hne hpre hneq hnone
    cases rest with
    | nil =>
      rcases prefix_singleton q f hpre with h0 | h1
      · exact absurd h0 hne
      · exact absurd h1 hneq
    | cons g rest' =>
      rcases List.prefix_cons_iff.mp hpre with h0 | ⟨t, rfl, ht⟩
      · exact absurd h0 hne
      cases hg : contentsGet d.contents f with
      | some v =>
        cases v with
        | page pg =>
          rw [insertList_cons_page d f g rest' n pg hg] at h
          exact Except.noConfusion h
        | directory dd =>
          cases hi : Directory.insertList dd (g :: rest') n with
          | error e =>
            rw [insertList_cons_dir_err d dd f g rest' n e hg hi] at h
            exact Except.noConfusion h
          | ok dd' =>
            rw [insertList_cons_dir_ok d dd dd' f g rest' n hg hi] at h
            injection h with h'
            subst h'
            cases t with
            | nil =>
              rw [getList_one, hg] at hnone
              exact Option.noConfusion hnone
            | cons b t' =>
              rw [getList_cons2_dir d dd f b t' hg] at hnone
              obtain ⟨ddx, hgot⟩ := ih dd dd' n (b :: t') hi
                (List.cons_ne_nil b t') ht
                (fun hh => hneq (by rw [hh])) hnone
              refine ⟨ddx, ?_⟩
              rw [getList_cons2_dir
                (Directory.mk (contentsSet d.contents f (Node.directory dd')))
                dd' f b t'
                (contentsGet_set_self d.contents f (Node.directory dd')
                  (Node.directory dd) hg)]
              exact hgot
      | none =>
        cases hi : Directory.insertList (Directory.mk []) (g :: rest') n with
        | error e =>
          rw [insertList_cons_vac_err d f g rest' n e hg hi] at h
          exact Except.noConfusion h
        | ok dd' =>
          rw [insertList_cons_vac_ok d dd' f g rest' n hg hi] at h
          injection h with h'
          subst h'
          cases t with
          | nil =>
            refine ⟨dd', ?_⟩
            rw [getList_one]
            exact contentsGet_append_self d.contents f (Node.directory dd') hg
          | cons b t' =>
            obtain ⟨ddx, hgot⟩ := ih (Directory.mk []) dd' n (b :: t') hi
              (List.cons_ne_nil b t') ht
              (fun hh => hneq (by rw [hh])) (getList_empty (b :: t'))
            refine ⟨ddx, ?_⟩
            rw [getList_cons2_dir
              (Directory.mk (d.contents ++ [(f, Node.directory dd')]))
              dd' f b t'
              (contentsGet_append_self d.contents f (Node.directory dd') hg)]
            exact hgot

/-- C4: for every non-empty path `p` on which `insert` succeeds and every node
`n`, `insert(p, n)` then `get(p)` returns exactly `n`; moreover `insert`
changes nothing at any path incomparable with `p`, and on the empty directory
`get` returns not-found on every path — so a path that was never inserted
(and is not a prefix of an inserted path) keeps returning not-found. -/
theorem insert_then_get (d d' : Directory) (p : InternalPath) (n : Node)
    (h : d.insert p n = .ok d') :
    d'.get p = some n ∧
    (∀ q : InternalPath, ¬ q.fragments <+: p.fragments →
      ¬ p.fragments <+: q.fragments → d'.get q = d.get q) ∧
    (∀ q : InternalPath, (Directory.mk []).get q = none) := by
  refine ⟨insertList_get p.fragments d d' n h, ?_, ?_⟩
  · intro q hqp hpq
    exact insertList_frame p.fragments d d' n q.fragments h hqp hpq
  · intro q
    exact getList_empty q.fragments

theorem insert_then_get_witness :
    (Directory.mk [("a", Node.page ⟨1⟩)]).get ⟨["a"]⟩ = some (Node.page ⟨1⟩) :=
  (insert_then_get (Directory.mk []) (Directory.mk [("a", Node.page ⟨1⟩)])
    ⟨["a"]⟩ (Node.page ⟨1⟩) rfl).1

/-- C5: `insert(path, node)` fails exactly when the path is empty, some
non-final segment is already occupied by a page, or the final slot is
occupied; in particular a second insert at an occupied leaf always fails
(never replacing the node), and a previously absent non-final segment gets an
intermediate directory. -/
theorem insert_fails_characterization (d : Directory) (p : InternalPath) (n : Node) :
    ((d.insert p n).isOk = false ↔
      (p.fragments = [] ∨
       (∃ q pg, q ≠ [] ∧ q <+: p.fragments ∧ q ≠ p.fragments ∧
          d.get ⟨q⟩ = some (Node.page pg)) ∨
       (d.get p).isSome = true)) ∧
    (∀ (d' : Directory) (m : Node), d.insert p n = .ok d' →
      (d'.insert p m).isOk = false) ∧
    (∀ (d' : Directory) (q : List Fragment), d.insert p n = .ok d' →
      q ≠ [] → q <+: p.fragments → q ≠ p.fragments → d.get ⟨q⟩ = none →
      ∃ dd, d'.get ⟨q⟩ = some (Node.directory dd)) := by
  refine ⟨insertList_fails_iff p.fragments d n, ?_, ?_⟩
  · intro d' m h
    have hsome : (Directory.getList d' p.fragments).isSome = true := by
      rw [insertList_get p.fragments d d' n h]
      rfl
    exact (insertList_fails_iff p.fragments d' m).mpr (Or.inr (Or.inr hsome))
  · intro d' q h hne hpre hneq hnone
    exact insertList_mkdir p.fragments d d' n q h hne hpre hneq hnone

theorem insert_fails_characterization_witness :
    ((Directory.mk [("a", Node.page ⟨1⟩)]).insert ⟨["a"]⟩ (Node.page ⟨2⟩)).isOk
      = false :=
  (insert_fails_characterization (Directory.mk [("a", Node.page ⟨1⟩)])
    ⟨["a"]⟩ (Node.page ⟨2⟩)).1.mpr (Or.inr (Or.inr rfl))

/-- C10: `get` and `get_mut` at the root path (the empty `InternalPath`)
return `None` for every directory, whatever its contents — the root directory
itself is never returned as a node. -/
theorem get_at_root_is_none (d : Directory) :
    d.get InternalPath.root = none ∧ d.get_mut InternalPath.root = none :=
  ⟨rfl, rfl⟩

/-! ## The pages iterator (src/src/site.rs lines 188–235) -/

/-- Embeds the iterator state `Pages` (site.rs lines 210–214). -/
structure Pages where
  curr_loc : InternalPath
  curr_iter : List (Fragment × Node)
  directories : List (InternalPath × Directory)

/-- Embeds `IntoIterator for &Directory` (site.rs lines 188–199). -/
def Directory.intoIter (d : Directory) : Pages :=
  ⟨InternalPath.root, d.contents, []⟩

/-- Embeds the whole iteration of `Pages::next` (site.rs lines 216–235),
collecting every yielded `(path, page)` pair in order: each fuel step is one
iteration of the source's `loop` — yield a page, defer a directory to the
stack, or pop a deferred directory into `curr_iter`.  The fuel passed by
`Directory.pages` strictly bounds the number of loop iterations, so the
collection is complete. -/
def Pages.run : Nat → Pages → List (InternalPath × Page)
  | 0, _ => []
  | fuel+1, s =>
    match s.curr_iter with
    | (suffix, node) :: tail =>
      match node with
      | .page pg =>
        (⟨s.curr_loc.fragments ++ [suffix]⟩, pg) ::
          Pages.run fuel ⟨s.curr_loc, tail, s.directories⟩
      | .directory dir =>
        Pages.run fuel ⟨s.curr_loc, tail,
          (⟨s.curr_loc.fragments ++ [suffix]⟩, dir) :: s.directories⟩
    | [] =>
      match s.directories with
      | [] => []
      | (loc, dir) :: ds => Pages.run fuel ⟨loc, dir.contents, ds⟩

mutual
/-- One iteration of the source loop processes a page in one step and a
directory in two (defer, pop) plus its contents; this weight counts them. -/
def Node.weight : Node → Nat
  | .page _ => 1
  | .directory d => 2 + Directory.weight d
def Directory.weight : Directory → Nat
  | .mk cs => entriesWeight cs
def entriesWeight : List (Fragment × Node) → Nat
  | [] => 0
  | (_, n) :: rest => Node.weight n + entriesWeight rest
end

def stackWeight : List (InternalPath × Directory) → Nat
  | [] => 0
  | (_, d) :: rest => Directory.weight d + stackWeight rest

/-- Loop iterations remaining from a `Pages` state. -/
def Pages.measure (s : Pages) : Nat :=
  entriesWeight s.curr_iter + stackWeight s.directories + s.directories.length

/-- `Directory.pages d` is the full yield sequence of iterating `&d`. -/
def Directory.pages (d : Directory) : List (InternalPath × Page) :=
  Pages.run (Pages.measure d.intoIter + 1) d.intoIter

mutual
/-- The specification's reachable-pages enumeration under a location. -/
def pagesOfNode : InternalPath → Node → List (InternalPath × Page)
  | loc, .page pg => [(loc, pg)]
  | loc, .directory d => pagesOfDir loc d
def pagesOfDir : InternalPath → Directory → List (InternalPath × Page)
  | loc, .mk cs => pagesOfEntries loc cs
def pagesOfEntries : InternalPath → List (Fragment × Node) → List (InternalPath × Page)
  | _, [] => []
  | loc, (f, n) :: rest =>
    pagesOfNode ⟨loc.fragments ++ [f]⟩ n ++ pagesOfEntries loc rest
end

def stackPages : List (InternalPath × Directory) → List (InternalPath × Page)
  | [] => []
  | (loc, d) :: ds => pagesOfDir loc d ++ stackPages ds

mutual
/-- Well-formedness of the modelled `HashMap`: sibling keys are distinct at
every level (guaranteed by `HashMap` in the source). -/
def Node.wfB : Node → Bool
  | .page _ => true
  | .directory d => Directory.wfB d
def Directory.wfB : Directory → Bool
  | .mk cs => entriesWfB cs
def entriesWfB : List (Fragment × Node) → Bool
  | [] => true
  | (f, n) :: rest => Node.wfB n && (contentsGet rest f).isNone && entriesWfB rest
end

theorem run_succ_page (fuel : Nat) (loc : InternalPath) (sfx : Fragment)
    (pg : Page) (tail : List (Fragment × Node))
    (dirs : List (InternalPath × Directory)) :
    Pages.run (fuel + 1) ⟨loc, (sfx, Node.page pg) :: tail, dirs⟩ =
      (⟨loc.fragments ++ [sfx]⟩, pg) :: Pages.run fuel ⟨loc, tail, dirs⟩ := rfl

theorem run_succ_dir (fuel : Nat) (loc : InternalPath) (sfx : Fragment)
    (dir : Directory) (tail : List (Fragment × Node))
    (dirs : List (InternalPath × Directory)) :
    Pages.run (fuel + 1) ⟨loc, (sfx, Node.directory dir) :: tail, dirs⟩ =
      Pages.run fuel ⟨loc, tail, (⟨loc.fragments ++ [sfx]⟩, dir) :: dirs⟩ := rfl

theorem run_succ_done (fuel : Nat) (loc : InternalPath) :
    Pages.run (fuel + 1) ⟨loc, [], []⟩ = [] := rfl

theorem run_succ_pop (fuel : Nat) (loc dloc : InternalPath) (ddir : Directory)
    (ds : List (InternalPath × Directory)) :
    Pages.run (fuel + 1) ⟨loc, [], (dloc, ddir) :: ds⟩ =
      Pages.run fuel ⟨dloc, ddir.contents, ds⟩ := rfl

/-- The iterator yields, up to order, the specification's reachable-pages
enumeration of its pending work. -/
theorem run_perm (fuel : Nat) :
    ∀ (loc : InternalPath) (iter : List (Fragment × Node))
      (dirs : List (InternalPath × Directory)),
      Pages.measure ⟨loc, iter, dirs⟩ < fuel →
      (Pages.run fuel ⟨loc, iter, dirs⟩).Perm
        (pagesOfEntries loc iter ++ stackPages dirs) := by
  induction fuel with
  | zero =>
    intro loc iter dirs h
    exact absurd h (Nat.not_lt_zero _)
  | succ fuel ih =>
    intro loc iter dirs h
    cases iter with
    | cons entry tail =>
      obtain ⟨sfx, node⟩ := entry
      cases node with
      | page pg =>
        rw [run_succ_page, pagesOfEntries, pagesOfNode, List.append_assoc,
          List.singleton_append]
        refine List.Perm.cons _ (ih loc tail dirs ?_)
        simp only [Pages.measure, entriesWeight, Node.weight] at h ⊢
        omega
      | directory dir =>
        rw [run_succ_dir, pagesOfEntries, pagesOfNode]
        have hm : Pages.measure ⟨loc, tail,
            (⟨loc.fragments ++ [sfx]⟩, dir) :: dirs⟩ < fuel := by
          simp only [Pages.measure, entriesWeight, Node.weight, stackWeight,
            List.length_cons] at h ⊢
          omega
        refine (ih loc tail _ hm).trans ?_
        rw [stackPages, ← List.append_assoc]
        exact (List.perm_append_comm).append_right _
    | nil =>
      cases dirs with
      | nil =>
        rw [run_succ_done, pagesOfEntries, stackPages, List.nil_append]
      | cons dt ds =>
        obtain ⟨dloc, ddir⟩ := dt
        obtain ⟨cs⟩ := ddir
        rw [run_succ_pop, pagesOfEntries, List.nil_append, stackPages,
          pagesOfDir]
        refine ih dloc (Directory.mk cs).contents ds ?_
        simp only [Pages.measure, entriesWeight, stackWeight,
          Directory.weight, Directory.contents, List.length_cons] at h ⊢
        omega

theorem Node.weight_pos (n : Node) : 1 ≤ Node.weight n := by
  cases n with
  | page pg => simp [Node.weight]
  | directory d =>
    show 1 ≤ 2 + Directory.weight d
    omega

theorem mem_pagesOfEntries_shape (w : Nat) :
    ∀ (cs : List (Fragment × Node)), entriesWeight cs ≤ w →
    ∀ (loc q : InternalPath) (pg : Page),
      (q, pg) ∈ pagesOfEntries loc cs →
      ∃ f sfx, q.fragments = loc.fragments ++ f :: sfx ∧
        (contentsGet cs f).isSome = true := by
  induction w using Nat.strong_induction_on with
  | _ w ihw =>
    intro cs hw loc q pg hmem
    cases cs with
    | nil => exact absurd hmem (List.not_mem_nil _)
    | cons entry rest =>
      obtain ⟨f, n⟩ := entry
      rw [pagesOfEntries] at hmem
      rcases List.mem_append.mp hmem with hL | hR
      · cases n with
        | page pg' =>
          rw [pagesOfNode] at hL
          have heq := List.mem_singleton.mp hL
          injection heq with h1 h2
          refine ⟨f, [], ?_, ?_⟩
          · rw [h1]
          · simp [contentsGet]
        | directory dd =>
          obtain ⟨cs'⟩ := dd
          rw [pagesOfNode, pagesOfDir] at hL
          have hlt : entriesWeight cs' < w := by
            have : entriesWeight ((f, Node.directory (Directory.mk cs')) :: rest)
                = (2 + entriesWeight cs') + entriesWeight rest := by
              rw [entriesWeight]
              rfl
            omega
          obtain ⟨f', sfx', hq, hsome⟩ :=
            ihw (entriesWeight cs') hlt cs' le_rfl ⟨loc.fragments ++ [f]⟩ q pg hL
          refine ⟨f, f' :: sfx', ?_, ?_⟩
          · rw [hq]
            simp
          · simp [contentsGet]
      · have hlt : entriesWeight rest < w := by
          have hpos := Node.weight_pos n
          have : entriesWeight ((f, n) :: rest)
              = Node.weight n + entriesWeight rest := rfl
          omega
        obtain ⟨f', sfx', hq, hsome⟩ :=
          ihw (entriesWeight rest) hlt rest le_rfl loc q pg hR
        refine ⟨f', sfx', hq, ?_⟩
        by_cases hff : f = f'
        · subst hff
          simp [contentsGet]
        · show (if f = f' then some n else contentsGet rest f').isSome = true
          rw [if_neg hff]
          exact hsome

/-- Membership in the reachable-pages enumeration is exactly resolvability to
that page, under distinct sibling keys. -/
theorem mem_pagesOfEntries_iff (w : Nat) :
    ∀ (cs : List (Fragment × Node)), entriesWeight cs ≤ w →
      entriesWfB cs = true →
    ∀ (loc q : InternalPath) (pg : Page),
      ((q, pg) ∈ pagesOfEntries loc cs ↔
        ∃ sfx, sfx ≠ [] ∧ q.fragments = loc.fragments ++ sfx ∧
          Directory.getList (Directory.mk cs) sfx = some (Node.page pg)) := by
  induction w using Nat.strong_induction_on with
  | _ w ihw =>
    intro cs hw hwf loc q pg
    cases cs with
    | nil =>
      rw [pagesOfEntries]
      constructor
      · intro hmem
        exact absurd hmem (List.not_mem_nil _)
      · rintro ⟨sfx, hne, hq, hget⟩
        rw [getList_empty sfx] at hget
        exact Option.noConfusion hget
    | cons entry rest =>
      obtain ⟨f, n⟩ := entry
      have hwf3 : Node.wfB n = true ∧ (contentsGet rest f).isNone = true ∧
          entriesWfB rest = true := by
        have : entriesWfB ((f, n) :: rest)
            = (Node.wfB n && (contentsGet rest f).isNone && entriesWfB rest) := rfl
        rw [this] at hwf
        simp only [Bool.and_eq_true] at hwf
        exact ⟨hwf.1.1, hwf.1.2, hwf.2⟩
      obtain ⟨hwfn, hnone, hwfrest⟩ := hwf3
      have hcontf : contentsGet ((f, n) :: rest) f = some n := by
        simp [contentsGet]
      have hrest_lt : entriesWeight rest < w := by
        have hpos := Node.weight_pos n
        have : entriesWeight ((f, n) :: rest)
            = Node.weight n + entriesWeight rest := rfl
        omega
      rw [pagesOfEntries]
      constructor
      · intro hmem
        rcases List.mem_append.mp hmem with hL | hR
        · cases n with
          | page pg' =>
            rw [pagesOfNode] at hL
            have heq := List.mem_singleton.mp hL
            injection heq with h1 h2
            subst h2
            refine ⟨[f], List.cons_ne_nil f [], by rw [h1], ?_⟩
            rw [getList_one]
            exact hcontf
          | directory dd =>
            obtain ⟨cs'⟩ := dd
            rw [pagesOfNode, pagesOfDir] at hL
            have hlt : entriesWeight cs' < w := by
              have : entriesWeight ((f, Node.directory (Directory.mk cs')) :: rest)
                  = (2 + entriesWeight cs') + entriesWeight rest := by
                rw [entriesWeight]
                rfl
              omega
            obtain ⟨sfx', hne', hq', hget'⟩ :=
              (ihw (entriesWeight cs') hlt cs' le_rfl hwfn
                ⟨loc.fragments ++ [f]⟩ q pg).mp hL
            cases sfx' with
            | nil => exact absurd rfl hne'
            | cons b sfx'' =>
              refine ⟨f :: b :: sfx'', List.cons_ne_nil f (b :: sfx''), ?_, ?_⟩
              · rw [hq']
                simp
              · rw [getList_cons2_dir
                  (Directory.mk ((f, Node.directory (Directory.mk cs')) :: rest))
                  (Directory.mk cs') f b sfx'' hcontf]
                exact hget'
        · obtain ⟨sfx, hne, hq, hget⟩ :=
            (ihw (entriesWeight rest) hrest_lt rest le_rfl hwfrest loc q pg).mp hR
          cases sfx with
          | nil => exact absurd rfl hne
          | cons a sfx'' =>
            by_cases haf : a = f
            · subst haf
              rw [getList_cons_none (Directory.mk rest) a sfx''
                (Option.isNone_iff_eq_none.mp hnone)] at hget
              exact absurd hget (by intro hh; exact Option.noConfusion hh)
            · refine ⟨a :: sfx'', hne, hq, ?_⟩
              rw [getList_cons_congr (Directory.mk ((f, n) :: rest))
                (Directory.mk rest) a sfx''
                (by show (if f = a then some n else contentsGet rest a)
                      = contentsGet rest a
                    rw [if_neg (fun hh => haf (Eq.symm hh))])]
              exact hget
      · rintro ⟨sfx, hne, hq, hget⟩
        cases sfx with
        | nil => exact absurd rfl hne
        | cons a sfx'' =>
          by_cases haf : a = f
          · subst haf
            cases sfx'' with
            | nil =>
              rw [getList_one] at hget
              have hget' : contentsGet ((a, n) :: rest) a
                  = some (Node.page pg) := hget
              have hn := Option.some.inj (hcontf.symm.trans hget')
              subst hn
              refine List.mem_append.mpr (Or.inl ?_)
              rw [pagesOfNode]
              have hq' : q = ⟨loc.fragments ++ [a]⟩ := by
                obtain ⟨qf⟩ := q
                simp only [InternalPath.mk.injEq]
                exact hq
              rw [hq']
              exact List.mem_singleton.mpr rfl
            | cons b sfx''' =>
              cases n with
              | page pg' =>
                rw [getList_cons2_page (Directory.mk ((a, Node.page pg') :: rest))
                  a b sfx''' pg' hcontf] at hget
                exact absurd hget (by intro hh; exact Option.noConfusion hh)
              | directory dd =>
                obtain ⟨cs'⟩ := dd
                rw [getList_cons2_dir (Directory.mk ((a, Node.directory (Directory.mk cs')) :: rest))
                  (Directory.mk cs') a b sfx''' hcontf] at hget
                have hlt : entriesWeight cs' < w := by
                  have : entriesWeight
                      ((a, Node.directory (Directory.mk cs')) :: rest)
                      = (2 + entriesWeight cs') + entriesWeight rest := by
                    rw [entriesWeight]
                    rfl
                  omega
                refine List.mem_append.mpr (Or.inl ?_)
                rw [pagesOfNode, pagesOfDir]
                refine (ihw (entriesWeight cs') hlt cs' le_rfl hwfn
                  ⟨loc.fragments ++ [a]⟩ q pg).mpr ⟨b :: sfx''',
                    List.cons_ne_nil b sfx''', ?_, hget⟩
                rw [hq]
                simp
          · refine List.mem_append.mpr (Or.inr ?_)
            refine (ihw (entriesWeight rest) hrest_lt rest le_rfl hwfrest
              loc q pg).mpr ⟨a :: sfx'', hne, hq, ?_⟩
            rw [getList_cons_congr (Directory.mk rest)
              (Directory.mk ((f, n) :: rest)) a sfx''
              (by show contentsGet rest a
                    = (if f = a then some n else contentsGet rest a)
                  rw [if_neg (fun hh => haf (Eq.symm hh))])]
            exact hget

theorem mem_pagesOfNode_shape (loc q : InternalPath) (pg : Page) (n : Node)
    (h : (q, pg) ∈ pagesOfNode loc n) : loc.fragments <+: q.fragments := by
  cases n with
  | page pg' =>
    rw [pagesOfNode] at h
    have heq := List.mem_singleton.mp h
    injection heq with h1 h2
    rw [h1]
  | directory dd =>
    obtain ⟨cs⟩ := dd
    rw [pagesOfNode, pagesOfDir] at h
    obtain ⟨f, sfx, hq, -⟩ :=
      mem_pagesOfEntries_shape (entriesWeight cs) cs le_rfl loc q pg h
    rw [hq]
    exact ⟨f :: sfx, rfl⟩

/-- Under distinct sibling keys, every reachable page is enumerated at a
distinct path. -/
theorem pagesOfEntries_nodup (w : Nat) :
    ∀ (cs : List (Fragment × Node)), entriesWeight cs ≤ w →
      entriesWfB cs = true →
    ∀ (loc : InternalPath),
      ((pagesOfEntries loc cs).map Prod.fst).Nodup := by
  induction w using Nat.strong_induction_on with
  | _ w ihw =>
    intro cs hw hwf loc
    cases cs with
    | nil =>
      rw [pagesOfEntries]
      exact List.nodup_nil
    | cons entry rest =>
      obtain ⟨f, n⟩ := entry
      have hwf3 : Node.wfB n = true ∧ (contentsGet rest f).isNone = true ∧
          entriesWfB rest = true := by
        have : entriesWfB ((f, n) :: rest)
            = (Node.wfB n && (contentsGet rest f).isNone && entriesWfB rest) := rfl
        rw [this] at hwf
        simp only [Bool.and_eq_true] at hwf
        exact ⟨hwf.1.1, hwf.1.2, hwf.2⟩
      obtain ⟨hwfn, hnone, hwfrest⟩ := hwf3
      have hrest_lt : entriesWeight rest < w := by
        have hpos := Node.weight_pos n
        have : entriesWeight ((f, n) :: rest)
            = Node.weight n + entriesWeight rest := rfl
        omega
      rw [pagesOfEntries, List.map_append, List.nodup_append]
      refine ⟨?_, ihw (entriesWeight rest) hrest_lt rest le_rfl hwfrest loc, ?_⟩
      · cases n with
        | page pg' =>
          rw [pagesOfNode]
          simp
        | directory dd =>
          obtain ⟨cs'⟩ := dd
          rw [pagesOfNode, pagesOfDir]
          have hlt : entriesWeight cs' < w := by
            have : entriesWeight ((f, Node.directory (Directory.mk cs')) :: rest)
                = (2 + entriesWeight cs') + entriesWeight rest := by
              rw [entriesWeight]
              rfl
            omega
          exact ihw (entriesWeight cs') hlt cs' le_rfl hwfn _
      · intro x hx hx'
        obtain ⟨⟨q1, pg1⟩, hmem1, hfst1⟩ := List.mem_map.mp hx
        obtain ⟨⟨q2, pg2⟩, hmem2, hfst2⟩ := List.mem_map.mp hx'
        have hsh1 := mem_pagesOfNode_shape ⟨loc.fragments ++ [f]⟩ q1 pg1 n hmem1
        obtain ⟨f', sfx', hq2, hsome⟩ :=
          mem_pagesOfEntries_shape (entriesWeight rest) rest le_rfl loc q2 pg2 hmem2
        obtain ⟨t, ht⟩ := hsh1
        have h1x : q1 = x := hfst1
        have h2x : q2 = x := hfst2
        have hq12 : q1 = q2 := h1x.trans h2x.symm
        rw [hq12, hq2] at ht
        rw [List.append_assoc] at ht
        have ht' : f :: t = f' :: sfx' := List.append_cancel_left ht
        have hff : f = f' := by
          injection ht' with h1 h2
        rw [← hff] at hsome
        rw [Option.isNone_iff_eq_none] at hnone
        rw [hnone] at hsome
        exact Bool.noConfusion hsome

/-- C9: iterating the `Pages` iterator from the root of a directory (with the
`HashMap`-guaranteed distinct sibling keys) yields exactly the pairs
`(p, page)` such that the node reachable at `p` is that page — each exactly
once, with its full path from the root — and nothing else; the order of the
yields is not specified. -/
theorem pages_iterator_spec (d : Directory) (h : Directory.wfB d = true) :
    (∀ (q : InternalPath) (pg : Page),
      (q, pg) ∈ d.pages ↔ d.get q = some (Node.page pg)) ∧
    (d.pages.map Prod.fst).Nodup := by
  obtain ⟨cs⟩ := d
  have hwf : entriesWfB cs = true := h
  have hperm : (Directory.pages (Directory.mk cs)).Perm
      (pagesOfEntries InternalPath.root cs) := by
    have hp := run_perm (Pages.measure (Directory.intoIter (Directory.mk cs)) + 1)
      InternalPath.root cs [] (Nat.lt_succ_self _)
    rw [stackPages, List.append_nil] at hp
    exact hp
  constructor
  · intro q pg
    rw [List.Perm.mem_iff hperm,
      mem_pagesOfEntries_iff (entriesWeight cs) cs le_rfl hwf
        InternalPath.root q pg]
    constructor
    · rintro ⟨sfx, hne, hq, hget⟩
      have hqs : q.fragments = sfx := by
        rw [hq]
        exact List.nil_append sfx
      rw [Directory.get, hqs]
      exact hget
    · intro hget
      refine ⟨q.fragments, ?_, (List.nil_append q.fragments).symm, hget⟩
      intro hh
      rw [Directory.get, hh] at hget
      rw [show Directory.getList (Directory.mk cs) [] = none from rfl] at hget
      exact Option.noConfusion hget
  · exact (List.Perm.nodup_iff (hperm.map Prod.fst)).mpr
      (pagesOfEntries_nodup (entriesWeight cs) cs le_rfl hwf InternalPath.root)

theorem pages_iterator_spec_witness :
    (⟨["b", "c"]⟩, (⟨2⟩ : Page)) ∈
      (Directory.mk [("a", Node.page ⟨1⟩),
        ("b", Node.directory (Directory.mk [("c", Node.page ⟨2⟩)]))]).pages :=
  ((pages_iterator_spec
    (Directory.mk [("a", Node.page ⟨1⟩),
      ("b", Node.directory (Directory.mk [("c", Node.page ⟨2⟩)]))]) rfl).1
    ⟨["b", "c"]⟩ ⟨2⟩).mpr rfl

/-! ## The parser (src/macros/src/ast/{inline,location,blocking,page,rust}.rs)

`syn` token streams are modelled as lists of token trees: identifiers, string
literals, punctuation, and parenthesized/bracketed groups.  `input.peek(...)`
inspects the head token tree without consuming; `input.fork().parse::<Ident>()`
succeeds exactly when the head is an identifier.  `syn::Error` is modelled as
`Except.error` with the message of the `Error::new` call; a delimited group
whose content is not fully consumed fails the parse (in `syn` this surfaces as
an "unexpected token" error when the macro input is finished, so overall
success and failure agree).  The recursive parsers take explicit fuel; each
top-level entry passes more fuel than the token count, which the
fuel-irrelevance lemmas below show is enough. -/

namespace Ast

inductive Tok where
  | ident (s : String)
  | litStr (s : String)
  | punct (c : Char)
  | paren (ts : List Tok)
  | bracket (ts : List Tok)

mutual
def Tok.size : Tok → Nat
  | .ident _ => 1
  | .litStr _ => 1
  | .punct _ => 1
  | .paren ts => 1 + Tok.sizeList ts
  | .bracket ts => 1 + Tok.sizeList ts
def Tok.sizeList : List Tok → Nat
  | [] => 0
  | t :: rest => Tok.size t + Tok.sizeList rest
end

/-- `input.fork().parse::<Ident>()` succeeding with an identifier equal to
`kw` (the shared shape of every keyword peek). -/
def peekIdentEq (kw : String) : List Tok → Bool
  | .ident s :: _ => s == kw
  | _ => false

/-- `input.peek(LitStr)`. -/
def peekLitStr : List Tok → Bool
  | .litStr _ :: _ => true
  | _ => false

/-- `input.peek(token::⟨punctuation⟩)`. -/
def peekPunct (c : Char) : List Tok → Bool
  | .punct c' :: _ => c' == c
  | _ => false

/-- `input.peek(token::Paren)`. -/
def peekParen : List Tok → Bool
  | .paren _ :: _ => true
  | _ => false

/-- `input.peek(token::Bracket)`. -/
def peekBracket : List Tok → Bool
  | .bracket _ :: _ => true
  | _ => false

/-- `input.parse::<Ident>()`. -/
def parseIdentTok : List Tok → Except String (String × List Tok)
  | .ident s :: rest => .ok (s, rest)
  | _ => .error "expected identifier"

/-- `input.parse::<LitStr>()`. -/
def parseLitStrTok : List Tok → Except String (String × List Tok)
  | .litStr s :: rest => .ok (s, rest)
  | _ => .error "expected string literal"

/-- `input.parse::<token::⟨punctuation⟩>()`. -/
def parsePunctTok (c : Char) : List Tok → Except String (Unit × List Tok)
  | .punct c' :: rest =>
    if c' = c then .ok ((), rest) else .error "expected punctuation"
  | _ => .error "expected punctuation"

/-- Embeds `Text` (inline.rs lines 82–85); the literal's string value. -/
structure Text where
  literal : String

/-- Embeds `InternalLoc` (location.rs lines 10–14); the `/` token carries no
information beyond its span. -/
structure InternalLoc where
  literal : String

/-- Embeds `Url` (location.rs lines 37–41). -/
structure Url where
  literal : String

/-- Embeds `Location` (location.rs lines 64–68). -/
inductive Location where
  | internal (l : InternalLoc)
  | url (u : Url)

/-- Embeds `InlineRust` (rust.rs lines 11–16).  Modelled from the spec: the
`syn::Expr` inside `$[...]` is external to this repository; per spec §4.1
(slot parsing) the content is captured as an opaque, unevaluated payload, so
we keep the raw bracketed token trees. -/
structure InlineRust where
  content : List Tok

/-- Embeds `Inlinable<T>` (rust.rs lines 40–44). -/
inductive Inlinable (α : Type) where
  | plain (a : α)
  | inlined (r : InlineRust)

mutual
/-- Embeds `inline::Component` (inline.rs lines 10–13). -/
inductive Component where
  | mk (terms : List (Inlinable ComponentTerm))
/-- Embeds `inline::ComponentTerm` (inline.rs lines 38–46). -/
inductive ComponentTerm where
  | text (t : Text)
  | location (l : Location)
  | bold (b : Bold)
  | italic (i : Italic)
  | preformatted (p : Preformatted)
  | link (l : Link)
/-- Embeds `Bold` (inline.rs lines 99–103); the keyword `Ident` field carries
no information beyond its span. -/
inductive Bold where
  | mk (target : Component)
/-- Embeds `Italic` (inline.rs lines 132–135). -/
inductive Italic where
  | mk (target : Component)
/-- Embeds `Preformatted` (inline.rs lines 165–169). -/
inductive Preformatted where
  | mk (target : Component)
/-- Embeds `Link` (inline.rs lines 198–203). -/
inductive Link where
  | mk (target : Component) (location : Inlinable Location)
end

def Component.terms : Component → List (Inlinable ComponentTerm)
  | .mk l => l

def Link.location : Link → Inlinable Location
  | .mk _ loc => loc

def Text.peek (ts : List Tok) : Bool := peekLitStr ts

def InternalLoc.peek (ts : List Tok) : Bool := peekPunct '/' ts

def Url.peek (ts : List Tok) : Bool := peekPunct '@' ts

def Location.peek (ts : List Tok) : Bool := InternalLoc.peek ts || Url.peek ts

def Bold.peek (ts : List Tok) : Bool := peekIdentEq "b" ts

def Italic.peek (ts : List Tok) : Bool := peekIdentEq "i" ts

def Preformatted.peek (ts : List Tok) : Bool := peekIdentEq "c" ts

def Link.peek (ts : List Tok) : Bool := peekIdentEq "l" ts

def InlineRust.peek (ts : List Tok) : Bool := peekPunct '$' ts

def ComponentTerm.peek (ts : List Tok) : Bool :=
  Text.peek ts || Location.peek ts || Bold.peek ts || Italic.peek ts
    || Preformatted.peek ts || Link.peek ts

def Component.peek (ts : List Tok) : Bool :=
  ComponentTerm.peek ts || peekParen ts

def Text.parse (ts : List Tok) : Except String (Text × List Tok) :=
  match parseLitStrTok ts with
  | .ok (s, r) => .ok (⟨s⟩, r)
  | .error e => .error e

def InternalLoc.parse (ts : List Tok) : Except String (InternalLoc × List Tok) :=
  match parsePunctTok '/' ts with
  | .ok (_, r) =>
    match parseLitStrTok r with
    | .ok (s, r2) => .ok (⟨s⟩, r2)
    | .error e => .error e
  | .error e => .error e

def Url.parse (ts : List Tok) : Except String (Url × List Tok) :=
  match parsePunctTok '@' ts with
  | .ok (_, r) =>
    match parseLitStrTok r with
    | .ok (s, r2) => .ok (⟨s⟩, r2)
    | .error e => .error e
  | .error e => .error e

/-- Embeds `Location::parse` (location.rs lines 76–86). -/
def Location.parse (ts : List Tok) : Except String (Location × List Tok) :=
  if InternalLoc.peek ts then
    match InternalLoc.parse ts with
    | .ok (l, r) => .ok (.internal l, r)
    | .error e => .error e
  else if Url.peek ts then
    match Url.parse ts with
    | .ok (u, r) => .ok (.url u, r)
    | .error e => .error e
  else .error "Expected `/` or `@`"

/-- Embeds `InlineRust::parse` (rust.rs lines 24–31): `$`, then a bracketed
group whose content is captured opaquely. -/
def InlineRust.parse (ts : List Tok) : Except String (InlineRust × List Tok) :=
  match parsePunctTok '$' ts with
  | .ok (_, r) =>
    match r with
    | .bracket g :: rest => .ok (⟨g⟩, rest)
    | _ => .error "expected square brackets"
  | .error e => .error e

/-- Embeds `Inlinable<Location>::parse` (rust.rs lines 55–66). -/
def parseInlinableLocation (ts : List Tok) :
    Except String (Inlinable Location × List Tok) :=
  if InlineRust.peek ts then
    match InlineRust.parse ts with
    | .ok (r, rest) => .ok (.inlined r, rest)
    | .error e => .error e
  else
    match Location.parse ts with
    | .ok (l, rest) => .ok (.plain l, rest)
    | .error e => .error e

/-- Embeds `Bold::parse` (inline.rs lines 118–130), with the recursive
component parser passed as `pc`. -/
def Bold.parseW (pc : List Tok → Except String (Component × List Tok))
    (ts : List Tok) : Except String (Bold × List Tok) :=
  match parseIdentTok ts with
  | .ok (s, r) =>
    if s = "b" then
      match pc r with
      | .ok (c, r2) => .ok (⟨c⟩, r2)
      | .error e => .error e
    else .error "Expected `b`"
  | .error e => .error e

/-- Embeds `Italic::parse` (inline.rs lines 151–163). -/
def Italic.parseW (pc : List Tok → Except String (Component × List Tok))
    (ts : List Tok) : Except String (Italic × List Tok) :=
  match parseIdentTok ts with
  | .ok (s, r) =>
    if s = "i" then
      match pc r with
      | .ok (c, r2) => .ok (⟨c⟩, r2)
      | .error e => .error e
    else .error "Expected `i`"
  | .error e => .error e

/-- Embeds `Preformatted::parse` (inline.rs lines 184–196). -/
def Preformatted.parseW (pc : List Tok → Except String (Component × List Tok))
    (ts : List Tok) : Except String (Preformatted × List Tok) :=
  match parseIdentTok ts with
  | .ok (s, r) =>
    if s = "c" then
      match pc r with
      | .ok (c, r2) => .ok (⟨c⟩, r2)
      | .error e => .error e
    else .error "Expected `c`"
  | .error e => .error e

/-- Embeds `Link::parse` (inline.rs lines 218–234): the keyword `l`, then the
target inline component, then an `Inlinable<Location>`. -/
def Link.parseW (pc : List Tok → Except String (Component × List Tok))
    (ts : List Tok) : Except String (Link × List Tok) :=
  match parseIdentTok ts with
  | .ok (s, r) =>
    if s = "l" then
      match pc r with
      | .ok (c, r2) =>
        match parseInlinableLocation r2 with
        | .ok (loc, r3) => .ok (⟨c, loc⟩, r3)
        | .error e => .error e
      | .error e => .error e
    else .error "Expected `l`"
  | .error e => .error e

/-- Embeds `ComponentTerm::parse` (inline.rs lines 59–79): the peek-directed
alternative chain. -/
def ComponentTerm.parseW (pc : List Tok → Except String (Component × List Tok))
    (ts : List Tok) : Except String (ComponentTerm × List Tok) :=
  if Text.peek ts then
    match Text.parse ts with
    | .ok (t, r) => .ok (.text t, r)
    | .error e => .error e
  else if Location.peek ts then
    match Location.parse ts with
    | .ok (l, r) => .ok (.location l, r)
    | .error e => .error e
  else if Bold.peek ts then
    match Bold.parseW pc ts with
    | .ok (b, r) => .ok (.bold b, r)
    | .error e => .error e
  else if Italic.peek ts then
    match Italic.parseW pc ts with
    | .ok (i, r) => .ok (.italic i, r)
    | .error e => .error e
  else if Preformatted.peek ts then
    match Preformatted.parseW pc ts with
    | .ok (p, r) => .ok (.preformatted p, r)
    | .error e => .error e
  else if Link.peek ts then
    match Link.parseW pc ts with
    | .ok (l, r) => .ok (.link l, r)
    | .error e => .error e
  else .error "Expected string literal, `#`, `/`, `@`, `b`, `i`, `c` or `l`"

/-- Embeds `Inlinable<ComponentTerm>::parse` (rust.rs lines 55–66). -/
def parseInlinableTermW (pc : List Tok → Except String (Component × List Tok))
    (ts : List Tok) : Except String (Inlinable ComponentTerm × List Tok) :=
  if InlineRust.peek ts then
    match InlineRust.parse ts with
    | .ok (r, rest) => .ok (.inlined r, rest)
    | .error e => .error e
  else
    match ComponentTerm.parseW pc ts with
    | .ok (t, rest) => .ok (.plain t, rest)
    | .error e => .error e

/-- One unfolding of the loop of `Component::parse` (inline.rs lines 21–36):
while something peeks, splice a parenthesized group or push one
`Inlinable<ComponentTerm>`; `pc` is the recursive call used for the group
content, the nested parses and the loop continuation. -/
def Component.parseStep (pc : List Tok → Except String (Component × List Tok))
    (ts : List Tok) : Except String (Component × List Tok) :=
  if Component.peek ts then
    match ts with
    | .paren g :: rest =>
      match pc g with
      | .ok (child, []) =>
        match pc rest with
        | .ok (c, rr) => .ok (.mk (child.terms ++ c.terms), rr)
        | .error e => .error e
      | .ok (_, _ :: _) => .error "unexpected token"
      | .error e => .error e
    | _ =>
      match parseInlinableTermW pc ts with
      | .ok (t, r) =>
        match pc r with
        | .ok (c, rr) => .ok (.mk (t :: c.terms), rr)
        | .error e => .error e
      | .error e => .error e
  else .ok (.mk [], ts)

/-- Embeds `Component::parse` (inline.rs lines 21–36), with fuel bounding the
recursion depth and loop length. -/
def Component.parse : Nat → List Tok → Except String (Component × List Tok)
  | 0, _ => .error "out of fuel"
  | fuel+1, ts => Component.parseStep (Component.parse fuel) ts

/-- The top-level inline-component parse; the fuel exceeds the token count,
which suffices (see the sufficiency lemma below). -/
def Component.parseTop (ts : List Tok) : Except String (Component × List Tok) :=
  Component.parse (Tok.sizeList ts + 1) ts

/-- The top-level inline-term parse (entry `ComponentTerm::parse`). -/
def ComponentTerm.parseTop (ts : List Tok) :
    Except String (ComponentTerm × List Tok) :=
  ComponentTerm.parseW (Component.parse (Tok.sizeList ts + 1)) ts

/-- The top-level literal-location parse (entry `Location::parse`). -/
def Location.parseTop (ts : List Tok) : Except String (Location × List Tok) :=
  Location.parse ts

/-- Embeds `blocking::Paragraph` (blocking.rs lines 32–36). -/
structure Paragraph where
  content : Component

/-- Embeds `blocking::Image` (blocking.rs lines 65–70). -/
structure Image where
  alt : Inlinable String
  link : Component

/-- Embeds `blocking::Component` (blocking.rs lines 8–12). -/
inductive BlockingComp where
  | paragraph (p : Paragraph)
  | image (i : Image)

def Paragraph.peek (ts : List Tok) : Bool := peekIdentEq "p" ts

def Image.peek (ts : List Tok) : Bool := peekIdentEq "img" ts

def BlockingComp.peek (ts : List Tok) : Bool :=
  Paragraph.peek ts || Image.peek ts

/-- Embeds `Paragraph::parse` (blocking.rs lines 51–63). -/
def Paragraph.parseW (pc : List Tok → Except String (Component × List Tok))
    (ts : List Tok) : Except String (Paragraph × List Tok) :=
  match parseIdentTok ts with
  | .ok (s, r) =>
    if s = "p" then
      match pc r with
      | .ok (c, r2) => .ok (⟨c⟩, r2)
      | .error e => .error e
    else .error "Expected `p`"
  | .error e => .error e

/-- Embeds `Inlinable<LitStr>::parse` (rust.rs lines 55–66). -/
def parseInlinableLit (ts : List Tok) :
    Except String (Inlinable String × List Tok) :=
  if InlineRust.peek ts then
    match InlineRust.parse ts with
    | .ok (r, rest) => .ok (.inlined r, rest)
    | .error e => .error e
  else
    match parseLitStrTok ts with
    | .ok (s, rest) => .ok (.plain s, rest)
    | .error e => .error e

/-- Embeds `Image::parse` (blocking.rs lines 85–96). -/
def Image.parseW (pc : List Tok → Except String (Component × List Tok))
    (ts : List Tok) : Except String (Image × List Tok) :=
  match parseIdentTok ts with
  | .ok (s, r) =>
    if s = "img" then
      match parseInlinableLit r with
      | .ok (alt, r2) =>
        match pc r2 with
        | .ok (c, r3) => .ok (⟨alt, c⟩, r3)
        | .error e => .error e
      | .error e => .error e
    else .error "Expected `img`"
  | .error e => .error e

/-- Embeds `blocking::Component::parse` (blocking.rs lines 20–29). -/
def BlockingComp.parseW (pc : List Tok → Except String (Component × List Tok))
    (ts : List Tok) : Except String (BlockingComp × List Tok) :=
  if Paragraph.peek ts then
    match Paragraph.parseW pc ts with
    | .ok (p, r) => .ok (.paragraph p, r)
    | .error e => .error e
  else if Image.peek ts then
    match Image.parseW pc ts with
    | .ok (i, r) => .ok (.image i, r)
    | .error e => .error e
  else .error "Expected `p` or `img`"

/-- Embeds `syn`'s `parse_terminated(BlockingComp::parse)` with separator `;`
(page.rs line 258): parse a value, stop if the input is exhausted, otherwise
require the separator, and repeat; it only stops at the end of the input. -/
def parseTerminatedW (pb : List Tok → Except String (BlockingComp × List Tok)) :
    Nat → List Tok → Except String (List BlockingComp)
  | 0, _ => .error "out of fuel"
  | fuel+1, ts =>
    match ts with
    | [] => .ok []
    | _ =>
      match pb ts with
      | .ok (v, r) =>
        match r with
        | [] => .ok [v]
        | _ =>
          match parsePunctTok ';' r with
          | .ok (_, r2) =>
            match parseTerminatedW pb fuel r2 with
            | .ok l => .ok (v :: l)
            | .error e => .error e
          | .error e => .error e
      | .error e => .error e

/-- Embeds `Body` (page.rs lines 242–245). -/
structure Body where
  terms : List BlockingComp

/-- Embeds `Body::parse` (page.rs lines 253–261): a leading `;` (peeked, not
consumed) yields an empty body; otherwise `parse_terminated` runs to the end
of the input. -/
def Body.parseW (pc : List Tok → Except String (Component × List Tok))
    (fuel : Nat) (ts : List Tok) : Except String (Body × List Tok) :=
  if peekPunct ';' ts then .ok (⟨[]⟩, ts)
  else
    match parseTerminatedW (BlockingComp.parseW pc) fuel ts with
    | .ok l => .ok (⟨l⟩, [])
    | .error e => .error e

mutual
/-- Embeds `Section` (page.rs lines 157–163), values only: the `Field`
wrappers hold the re-parsed name `Ident` and colon, which carry no
information beyond their spans. -/
inductive Section where
  | mk (id : String) (title : Component) (body : Body)
    (children : Option Children)
/-- Embeds `Children` (page.rs lines 218–221). -/
inductive Children where
  | mk (sections : List Section)
end

def Children.sections : Children → List Section
  | .mk l => l

/-- Embeds `Page` (page.rs lines 111–116), values only, like `Section`. -/
structure Page where
  title : String
  body : Body
  children : Option Children

/-- Embeds `Field<T>::parse` (page.rs lines 39–54): parse a (fresh) name
`Ident`, require it to equal the field name, then the colon, then the value.
The record loops below call this after having already consumed the key
identifier, exactly as `Page::parse`/`Section::parse` do with
`input.parse::<Field<..>>()`. -/
def parseFieldW {α : Type} (name : String)
    (pv : List Tok → Except String (α × List Tok)) (ts : List Tok) :
    Except String (α × List Tok) :=
  match parseIdentTok ts with
  | .ok (n, r) =>
    if n = name then
      match parsePunctTok ':' r with
      | .ok (_, r2) => pv r2
      | .error e => .error e
    else .error ("Expected `" ++ name ++ "`")
  | .error e => .error e

/-- Embeds `Children::parse` (page.rs lines 229–239): while a bracketed group
peeks, parse a `Section` from its whole content (`Section::parse` consumes its
entire buffer). -/
def childrenLoopW (psec : List Tok → Except String Section) :
    Nat → List Tok → Except String (Children × List Tok)
  | 0, _ => .error "out of fuel"
  | fuel+1, ts =>
    match ts with
    | .bracket g :: rest =>
      match psec g with
      | .ok sec =>
        match childrenLoopW psec fuel rest with
        | .ok (c, r) => .ok (⟨sec :: c.sections⟩, r)
        | .error e => .error e
      | .error e => .error e
    | _ => .ok (⟨[]⟩, ts)

/-- Embeds the `while !input.is_empty()` record loop of `Section::parse`
(page.rs lines 165–215), including its final missing-field checks in source
order (`id`, `title`, `body`).  A key equal to a field name with that field
already set is "... already declared"; an unknown key is consumed and
ignored. -/
def sectionLoopW (pchildren : List Tok → Except String (Children × List Tok))
    (ptitle : List Tok → Except String (Component × List Tok))
    (pbody : List Tok → Except String (Body × List Tok)) :
    Nat → Option String → Option Component → Option Body → Option Children →
    List Tok → Except String Section
  | 0, _, _, _, _, _ => .error "out of fuel"
  | fuel+1, mid, mtitle, mbody, mchildren, ts =>
    match ts with
    | [] =>
      match mid with
      | none => .error "missing section id"
      | some i =>
        match mtitle with
        | none => .error "missing section title"
        | some t =>
          match mbody with
          | none => .error "missing section body"
          | some b => .ok (.mk i t b mchildren)
    | _ =>
      match parseIdentTok ts with
      | .error e => .error e
      | .ok (key, r) =>
        if key = "id" then
          if mid.isSome then .error "section id already declared"
          else
            match parseFieldW "id" parseLitStrTok r with
            | .ok (v, r2) =>
              sectionLoopW pchildren ptitle pbody fuel (some v) mtitle mbody
                mchildren r2
            | .error e => .error e
        else if key = "title" then
          if mtitle.isSome then .error "section title already declared"
          else
            match parseFieldW "title" ptitle r with
            | .ok (v, r2) =>
              sectionLoopW pchildren ptitle pbody fuel mid (some v) mbody
                mchildren r2
            | .error e => .error e
        else if key = "body" then
          if mbody.isSome then .error "section body already declared"
          else
            match parseFieldW "body" pbody r with
            | .ok (v, r2) =>
              sectionLoopW pchildren ptitle pbody fuel mid mtitle (some v)
                mchildren r2
            | .error e => .error e
        else if key = "children" then
          if mchildren.isSome then .error "section children already declared"
          else
            match parseFieldW "children" pchildren r with
            | .ok (v, r2) =>
              sectionLoopW pchildren ptitle pbody fuel mid mtitle mbody
                (some v) r2
            | .error e => .error e
        else sectionLoopW pchildren ptitle pbody fuel mid mtitle mbody
          mchildren r

/-- Embeds `Section::parse` (page.rs lines 165–216). -/
def Section.parse : Nat → List Tok → Except String Section
  | 0, _ => .error "out of fuel"
  | fuel+1, ts =>
    sectionLoopW (childrenLoopW (Section.parse fuel) fuel)
      (Component.parse fuel) (Body.parseW (Component.parse fuel) fuel)
      fuel none none none none ts

/-- Embeds the record loop of `Page::parse` (page.rs lines 118–155),
including the final missing-field checks in source order (`title`, `body`). -/
def pageLoopW (pchildren : List Tok → Except String (Children × List Tok))
    (pbody : List Tok → Except String (Body × List Tok)) :
    Nat → Option String → Option Body → Option Children →
    List Tok → Except String Page
  | 0, _, _, _, _ => .error "out of fuel"
  | fuel+1, mtitle, mbody, mchildren, ts =>
    match ts with
    | [] =>
      match mtitle with
      | none => .error "missing page title"
      | some t =>
        match mbody with
        | none => .error "missing page body"
        | some b => .ok ⟨t, b, mchildren⟩
    | _ =>
      match parseIdentTok ts with
      | .error e => .error e
      | .ok (key, r) =>
        if key = "title" then
          if mtitle.isSome then .error "page title already declared"
          else
            match parseFieldW "title" parseLitStrTok r with
            | .ok (v, r2) => pageLoopW pchildren pbody fuel (some v) mbody mchildren r2
            | .error e => .error e
        else if key = "body" then
          if mbody.isSome then .error "page body already declared"
          else
            match parseFieldW "body" pbody r with
            | .ok (v, r2) => pageLoopW pchildren pbody fuel mtitle (some v) mchildren r2
            | .error e => .error e
        else if key = "children" then
          if mchildren.isSome then .error "page children already declared"
          else
            match parseFieldW "children" pchildren r with
            | .ok (v, r2) => pageLoopW pchildren pbody fuel mtitle mbody (some v) r2
            | .error e => .error e
        else pageLoopW pchildren pbody fuel mtitle mbody mchildren r

/-- Embeds `Page::parse` (page.rs lines 118–155). -/
def Page.parse : Nat → List Tok → Except String Page
  | 0, _ => .error "out of fuel"
  | fuel+1, ts =>
    pageLoopW (childrenLoopW (Section.parse fuel) fuel)
      (Body.parseW (Component.parse fuel) fuel)
      fuel none none none ts

/-- Top-level `Page` parse with ample fuel: every fueled loop runs at most
one step per consumed token plus one final step, and each section-nesting
level (at least one token, its bracket) costs one further fuel unit, so twice
the token count plus a constant bounds every fuel counter. -/
def Page.parseTop (ts : List Tok) : Except String Page :=
  Page.parse (2 * Tok.sizeList ts + 4) ts

/-- Top-level `Section` parse with ample fuel (see `Page.parseTop`). -/
def Section.parseTop (ts : List Tok) : Except String Section :=
  Section.parse (2 * Tok.sizeList ts + 4) ts

end Ast

namespace Ast

theorem sizeList_append (a b : List Tok) :
    Tok.sizeList (a ++ b) = Tok.sizeList a + Tok.sizeList b := by
  induction a with
  | nil => rw [List.nil_append, Tok.sizeList, Nat.zero_add]
  | cons t rest ih =>
    rw [List.cons_append, Tok.sizeList, Tok.sizeList, ih, Nat.add_assoc]

theorem Tok.size_pos (t : Tok) : 1 ≤ Tok.size t := by
  cases t <;> simp [Tok.size] <;> omega

theorem sizeList_cons (t : Tok) (rest : List Tok) :
    Tok.sizeList (t :: rest) = Tok.size t + Tok.sizeList rest := rfl

theorem peekIdentEq_append (kw : String) (ts v : List Tok) (h : ts ≠ []) :
    peekIdentEq kw (ts ++ v) = peekIdentEq kw ts := by
  cases ts with
  | nil => exact absurd rfl h
  | cons t rest => cases t <;> rfl

theorem peekLitStr_append (ts v : List Tok) (h : ts ≠ []) :
    peekLitStr (ts ++ v) = peekLitStr ts := by
  cases ts with
  | nil => exact absurd rfl h
  | cons t rest => cases t <;> rfl

theorem peekPunct_append (c : Char) (ts v : List Tok) (h : ts ≠ []) :
    peekPunct c (ts ++ v) = peekPunct c ts := by
  cases ts with
  | nil => exact absurd rfl h
  | cons t rest => cases t <;> rfl

theorem peekParen_append (ts v : List Tok) (h : ts ≠ []) :
    peekParen (ts ++ v) = peekParen ts := by
  cases ts with
  | nil => exact absurd rfl h
  | cons t rest => cases t <;> rfl

theorem ctermPeek_append (ts v : List Tok) (h : ts ≠ []) :
    ComponentTerm.peek (ts ++ v) = ComponentTerm.peek ts := by
  rw [ComponentTerm.peek, ComponentTerm.peek, Text.peek, Text.peek,
    Location.peek, Location.peek, InternalLoc.peek, InternalLoc.peek,
    Url.peek, Url.peek, Bold.peek, Bold.peek, Italic.peek, Italic.peek,
    Preformatted.peek, Preformatted.peek, Link.peek, Link.peek,
    peekLitStr_append ts v h, peekPunct_append '/' ts v h,
    peekPunct_append '@' ts v h, peekIdentEq_append "b" ts v h,
    peekIdentEq_append "i" ts v h, peekIdentEq_append "c" ts v h,
    peekIdentEq_append "l" ts v h]

theorem componentPeek_append (ts v : List Tok) (h : ts ≠ []) :
    Component.peek (ts ++ v) = Component.peek ts := by
  rw [Component.peek, Component.peek, ctermPeek_append ts v h,
    peekParen_append ts v h]

end Ast

namespace Ast

theorem sizeList_tail_lt (t : Tok) (rest : List Tok) :
    Tok.sizeList rest < Tok.sizeList (t :: rest) := by
  rw [sizeList_cons]
  have := Tok.size_pos t
  omega

theorem parseIdentTok_consume (ts : List Tok) (s : String) (r : List Tok)
    (h : parseIdentTok ts = .ok (s, r)) : Tok.sizeList r < Tok.sizeList ts := by
  cases ts with
  | nil => exact Except.noConfusion h
  | cons t rest =>
    cases t <;> try exact Except.noConfusion h
    cases h
    exact sizeList_tail_lt _ _

theorem parseLitStrTok_consume (ts : List Tok) (s : String) (r : List Tok)
    (h : parseLitStrTok ts = .ok (s, r)) : Tok.sizeList r < Tok.sizeList ts := by
  cases ts with
  | nil => exact Except.noConfusion h
  | cons t rest =>
    cases t <;> try exact Except.noConfusion h
    cases h
    exact sizeList_tail_lt _ _

theorem parsePunctTok_consume (c : Char) (ts : List Tok) (u : Unit) (r : List Tok)
    (h : parsePunctTok c ts = .ok (u, r)) : Tok.sizeList r < Tok.sizeList ts := by
  cases ts with
  | nil => exact Except.noConfusion h
  | cons t rest =>
    cases t <;> try exact Except.noConfusion h
    rename_i c'
    rw [parsePunctTok] at h
    split at h
    · cases h
      exact sizeList_tail_lt _ _
    · exact Except.noConfusion h

theorem inlineRustParse_consume (ts : List Tok) (ir : InlineRust) (r : List Tok)
    (h : InlineRust.parse ts = .ok (ir, r)) : Tok.sizeList r < Tok.sizeList ts := by
  rw [InlineRust.parse] at h
  split at h
  · rename_i u r1 heq
    have h1 := parsePunctTok_consume '$' ts u r1 heq
    cases r1 with
    | nil => exact Except.noConfusion h
    | cons t rest =>
      cases t <;> try exact Except.noConfusion h
      cases h
      rename_i g
      have h2 := sizeList_tail_lt (Tok.bracket g) r
      omega
  · exact Except.noConfusion h

theorem internalLocParse_consume (ts : List Tok) (l : InternalLoc) (r : List Tok)
    (h : InternalLoc.parse ts = .ok (l, r)) : Tok.sizeList r < Tok.sizeList ts := by
  rw [InternalLoc.parse] at h
  split at h
  · rename_i u r1 heq
    split at h
    · rename_i s r2 heq2
      cases h
      have h1 := parsePunctTok_consume '/' ts u r1 heq
      have h2 := parseLitStrTok_consume r1 s r heq2
      omega
    · exact Except.noConfusion h
  · exact Except.noConfusion h

theorem urlParse_consume (ts : List Tok) (l : Url) (r : List Tok)
    (h : Url.parse ts = .ok (l, r)) : Tok.sizeList r < Tok.sizeList ts := by
  rw [Url.parse] at h
  split at h
  · rename_i u r1 heq
    split at h
    · rename_i s r2 heq2
      cases h
      have h1 := parsePunctTok_consume '@' ts u r1 heq
      have h2 := parseLitStrTok_consume r1 s r heq2
      omega
    · exact Except.noConfusion h
  · exact Except.noConfusion h

theorem locationParse_consume (ts : List Tok) (l : Location) (r : List Tok)
    (h : Location.parse ts = .ok (l, r)) : Tok.sizeList r < Tok.sizeList ts := by
  rw [Location.parse] at h
  split at h
  · split at h
    · rename_i il r1 heq
      cases h
      exact internalLocParse_consume ts il r heq
    · exact Except.noConfusion h
  · split at h
    · split at h
      · rename_i uu r1 heq
        cases h
        exact urlParse_consume ts uu r heq
      · exact Except.noConfusion h
    · exact Except.noConfusion h

theorem parseInlinableLocation_consume (ts : List Tok) (l : Inlinable Location)
    (r : List Tok) (h : parseInlinableLocation ts = .ok (l, r)) :
    Tok.sizeList r < Tok.sizeList ts := by
  rw [parseInlinableLocation] at h
  split at h
  · split at h
    · rename_i ir rest heq
      cases h
      exact inlineRustParse_consume ts ir _ heq
    · exact Except.noConfusion h
  · split at h
    · rename_i l' rest heq
      cases h
      exact locationParse_consume ts l' _ heq
    · exact Except.noConfusion h

theorem parseInlinableLit_consume (ts : List Tok) (l : Inlinable String)
    (r : List Tok) (h : parseInlinableLit ts = .ok (l, r)) :
    Tok.sizeList r < Tok.sizeList ts := by
  rw [parseInlinableLit] at h
  split at h
  · split at h
    · rename_i ir rest heq
      cases h
      exact inlineRustParse_consume ts ir _ heq
    · exact Except.noConfusion h
  · split at h
    · rename_i s rest heq
      cases h
      exact parseLitStrTok_consume ts s _ heq
    · exact Except.noConfusion h

end Ast

namespace Ast

theorem textParse_consume (ts : List Tok) (t : Text) (r : List Tok)
    (h : Text.parse ts = .ok (t, r)) : Tok.sizeList r < Tok.sizeList ts := by
  rw [Text.parse] at h
  split at h
  · rename_i s r1 heq
    cases h
    exact parseLitStrTok_consume ts s r heq
  · exact Except.noConfusion h

theorem boldParseW_consume (pc : List Tok → Except String (Component × List Tok))
    (hpc : ∀ u c r, pc u = .ok (c, r) → Tok.sizeList r ≤ Tok.sizeList u)
    (ts : List Tok) (b : Bold) (r : List Tok) (h : Bold.parseW pc ts = .ok (b, r)) :
    Tok.sizeList r < Tok.sizeList ts := by
  rw [Bold.parseW] at h
  split at h
  · rename_i s r1 heq
    split at h
    · split at h
      · rename_i c r2 heq2
        cases h
        have h1 := parseIdentTok_consume ts s r1 heq
        have h2 := hpc r1 c r heq2
        omega
      · exact Except.noConfusion h
    · exact Except.noConfusion h
  · exact Except.noConfusion h

theorem italicParseW_consume (pc : List Tok → Except String (Component × List Tok))
    (hpc : ∀ u c r, pc u = .ok (c, r) → Tok.sizeList r ≤ Tok.sizeList u)
    (ts : List Tok) (b : Italic) (r : List Tok)
    (h : Italic.parseW pc ts = .ok (b, r)) :
    Tok.sizeList r < Tok.sizeList ts := by
  rw [Italic.parseW] at h
  split at h
  · rename_i s r1 heq
    split at h
    · split at h
      · rename_i c r2 heq2
        cases h
        have h1 := parseIdentTok_consume ts s r1 heq
        have h2 := hpc r1 c r heq2
        omega
      · exact Except.noConfusion h
    · exact Except.noConfusion h
  · exact Except.noConfusion h

theorem preParseW_consume
    (pc : List Tok → Except String (Component × List Tok))
    (hpc : ∀ u c r, pc u = .ok (c, r) → Tok.sizeList r ≤ Tok.sizeList u)
    (ts : List Tok) (b : Preformatted) (r : List Tok)
    (h : Preformatted.parseW pc ts = .ok (b, r)) :
    Tok.sizeList r < Tok.sizeList ts := by
  rw [Preformatted.parseW] at h
  split at h
  · rename_i s r1 heq
    split at h
    · split at h
      · rename_i c r2 heq2
        cases h
        have h1 := parseIdentTok_consume ts s r1 heq
        have h2 := hpc r1 c r heq2
        omega
      · exact Except.noConfusion h
    · exact Except.noConfusion h
  · exact Except.noConfusion h

theorem linkParseW_consume (pc : List Tok → Except String (Component × List Tok))
    (hpc : ∀ u c r, pc u = .ok (c, r) → Tok.sizeList r ≤ Tok.sizeList u)
    (ts : List Tok) (lk : Link) (r : List Tok)
    (h : Link.parseW pc ts = .ok (lk, r)) :
    Tok.sizeList r < Tok.sizeList ts := by
  rw [Link.parseW] at h
  split at h
  · rename_i s r1 heq
    split at h
    · split at h
      · rename_i c r2 heq2
        split at h
        · rename_i loc r3 heq3
          cases h
          have h1 := parseIdentTok_consume ts s r1 heq
          have h2 := hpc r1 c r2 heq2
          have h3 := parseInlinableLocation_consume r2 loc r heq3
          omega
        · exact Except.noConfusion h
      · exact Except.noConfusion h
    · exact Except.noConfusion h
  · exact Except.noConfusion h

theorem ctermParseW_consume
    (pc : List Tok → Except String (Component × List Tok))
    (hpc : ∀ u c r, pc u = .ok (c, r) → Tok.sizeList r ≤ Tok.sizeList u)
    (ts : List Tok) (t : ComponentTerm) (r : List Tok)
    (h : ComponentTerm.parseW pc ts = .ok (t, r)) :
    Tok.sizeList r < Tok.sizeList ts := by
  rw [ComponentTerm.parseW] at h
  split at h
  · split at h
    · rename_i tt r1 heq
      cases h
      exact textParse_consume ts tt r heq
    · exact Except.noConfusion h
  · split at h
    · split at h
      · rename_i l r1 heq
        cases h
        exact locationParse_consume ts l r heq
      · exact Except.noConfusion h
    · split at h
      · split at h
        · rename_i b r1 heq
          cases h
          exact boldParseW_consume pc hpc ts b r heq
        · exact Except.noConfusion h
      · split at h
        · split at h
          · rename_i i r1 heq
            cases h
            exact italicParseW_consume pc hpc ts i r heq
          · exact Except.noConfusion h
        · split at h
          · split at h
            · rename_i p r1 heq
              cases h
              exact preParseW_consume pc hpc ts p r heq
            · exact Except.noConfusion h
          · split at h
            · split at h
              · rename_i lk r1 heq
                cases h
                exact linkParseW_consume pc hpc ts lk r heq
              · exact Except.noConfusion h
            · exact Except.noConfusion h

theorem parseInlinableTermW_consume
    (pc : List Tok → Except String (Component × List Tok))
    (hpc : ∀ u c r, pc u = .ok (c, r) → Tok.sizeList r ≤ Tok.sizeList u)
    (ts : List Tok) (t : Inlinable ComponentTerm) (r : List Tok)
    (h : parseInlinableTermW pc ts = .ok (t, r)) :
    Tok.sizeList r < Tok.sizeList ts := by
  rw [parseInlinableTermW] at h
  split at h
  · split at h
    · rename_i ir r1 heq
      cases h
      exact inlineRustParse_consume ts ir r heq
    · exact Except.noConfusion h
  · split at h
    · rename_i tt r1 heq
      cases h
      exact ctermParseW_consume pc hpc ts tt r heq
    · exact Except.noConfusion h

theorem Component.parseStep_bound
    (pc : List Tok → Except String (Component × List Tok))
    (hpc : ∀ u c r, pc u = .ok (c, r) → Tok.sizeList r ≤ Tok.sizeList u)
    (ts : List Tok) (c : Component) (r : List Tok)
    (h : Component.parseStep pc ts = .ok (c, r)) :
    Tok.sizeList r ≤ Tok.sizeList ts := by
  unfold Component.parseStep at h
  split at h
  · split at h
    · rename_i g rest hpk
      split at h
      · rename_i child heq
        split at h
        · rename_i c2 rr heq2
          cases h
          have h2 := hpc rest c2 r heq2
          have h3 := sizeList_tail_lt (Tok.paren g) rest
          omega
        · exact Except.noConfusion h
      · exact Except.noConfusion h
      · exact Except.noConfusion h
    · split at h
      · rename_i t r1 heq
        split at h
        · rename_i c2 rr heq2
          cases h
          have h1 := parseInlinableTermW_consume pc hpc ts t r1 heq
          have h2 := hpc r1 c2 r heq2
          omega
        · exact Except.noConfusion h
      · exact Except.noConfusion h
  · cases h
    exact Nat.le_refl _

theorem Component.parse_bound (fuel : Nat) :
    ∀ (ts : List Tok) (c : Component) (r : List Tok),
      Component.parse fuel ts = .ok (c, r) → Tok.sizeList r ≤ Tok.sizeList ts := by
  induction fuel with
  | zero =>
    intro ts c r h
    exact Except.noConfusion h
  | succ fuel ih =>
    intro ts c r h
    rw [Component.parse] at h
    exact Component.parseStep_bound (Component.parse fuel) ih ts c r h

theorem Component.parse_nil (fuel : Nat) :
    Component.parse fuel [] = .error "out of fuel" ∨
      Component.parse fuel [] = .ok (.mk [], []) := by
  cases fuel with
  | zero => exact Or.inl rfl
  | succ fuel => exact Or.inr rfl

end Ast

namespace Ast

theorem Component.parseStep_stop
    (pc : List Tok → Except String (Component × List Tok))
    (hpc : ∀ ts c r, pc ts = .ok (c, r) → Component.peek r = false)
    (ts : List Tok) (c : Component) (r : List Tok)
    (h : Component.parseStep pc ts = .ok (c, r)) : Component.peek r = false := by
  unfold Component.parseStep at h
  split at h
  · split at h
    · rename_i g rest hpk
      split at h
      · rename_i child heq
        split at h
        · rename_i c2 rr heq2
          cases h
          exact hpc rest c2 r heq2
        · exact Except.noConfusion h
      · exact Except.noConfusion h
      · exact Except.noConfusion h
    · split at h
      · rename_i t r1 heq
        split at h
        · rename_i c2 rr heq2
          cases h
          exact hpc r1 c2 r heq2
        · exact Except.noConfusion h
      · exact Except.noConfusion h
  · rename_i hpk
    cases h
    simpa using hpk

/-- Whenever `Component::parse` returns, nothing parseable as another inline
term (or group) starts the remaining input — the loop is maximally greedy. -/
theorem Component.parse_stop (fuel : Nat) :
    ∀ (ts : List Tok) (c : Component) (r : List Tok),
      Component.parse fuel ts = .ok (c, r) → Component.peek r = false := by
  induction fuel with
  | zero =>
    intro ts c r h
    exact Except.noConfusion h
  | succ fuel ih =>
    intro ts c r h
    rw [Component.parse] at h
    exact Component.parseStep_stop (Component.parse fuel) ih ts c r h

theorem Location.peek_false_of_component (r : List Tok)
    (h : Component.peek r = false) :
    InternalLoc.peek r = false ∧ Url.peek r = false := by
  rw [Component.peek, ComponentTerm.peek, Location.peek] at h
  simp only [Bool.or_eq_false_iff] at h
  exact ⟨h.1.1.1.1.1.2.1, h.1.1.1.1.1.2.2⟩

theorem Location.parse_of_peek_false (r : List Tok)
    (h1 : InternalLoc.peek r = false) (h2 : Url.peek r = false) :
    Location.parse r = .error "Expected `/` or `@`" := by
  rw [Location.parse, if_neg (by rw [h1]; exact Bool.false_ne_true),
    if_neg (by rw [h2]; exact Bool.false_ne_true)]

end Ast

namespace Ast

/-- A successfully parsed `Link` can never carry a literal `Location`: the
greedy target component consumes any following `/`- or `@`-led tokens, so the
location that `Link::parse` then reads can only be a `$[...]` slot. -/
theorem Link.parseW_location_inlined (fuel : Nat) (ts : List Tok) (lk : Link)
    (r : List Tok) (h : Link.parseW (Component.parse fuel) ts = .ok (lk, r)) :
    ∃ ir, lk.location = .inlined ir := by
  rw [Link.parseW] at h
  split at h
  · rename_i s r1 heq
    split at h
    · split at h
      · rename_i c r2 heq2
        split at h
        · rename_i loc r3 heq3
          cases h
          have hstop := Component.parse_stop fuel r1 c r2 heq2
          obtain ⟨hil, hurl⟩ := Location.peek_false_of_component r2 hstop
          rw [parseInlinableLocation] at heq3
          split at heq3
          · split at heq3
            · rename_i ir rest heq4
              cases heq3
              exact ⟨ir, rfl⟩
            · exact Except.noConfusion heq3
          · rw [Location.parse_of_peek_false r2 hil hurl] at heq3
            exact Except.noConfusion heq3
        · exact Except.noConfusion h
      · exact Except.noConfusion h
    · exact Except.noConfusion h
  · exact Except.noConfusion h

/-- When the tokens after the `l` keyword form one complete inline component
(the greedy target consumes them all), `Link::parse` fails at its location. -/
theorem Link.parseW_fails_after_full_component (fuel : Nat) (ts : List Tok)
    (c : Component) (h : Component.parse fuel ts = .ok (c, [])) :
    Link.parseW (Component.parse fuel) (Tok.ident "l" :: ts) =
      .error "Expected `/` or `@`" := by
  have hred : Link.parseW (Component.parse fuel) (Tok.ident "l" :: ts) =
      (match Component.parse fuel ts with
       | .ok (c, r2) =>
         (match parseInlinableLocation r2 with
          | .ok (loc, r3) =>
            (.ok (Link.mk c loc, r3) : Except String (Link × List Tok))
          | .error e => .error e)
       | .error e => .error e) := rfl
  rw [hred, h]
  rfl

end Ast

namespace Ast

theorem boldParseW_congr (pc1 pc2 : List Tok → Except String (Component × List Tok))
    (ts : List Tok)
    (hag : ∀ u, Tok.sizeList u < Tok.sizeList ts → pc1 u = pc2 u) :
    Bold.parseW pc1 ts = Bold.parseW pc2 ts := by
  cases heq : parseIdentTok ts with
  | error e => rw [Bold.parseW, Bold.parseW, heq]
  | ok pr =>
    obtain ⟨s, r1⟩ := pr
    rw [Bold.parseW, Bold.parseW, heq]
    dsimp only
    rw [hag r1 (parseIdentTok_consume ts s r1 heq)]

theorem italicParseW_congr (pc1 pc2 : List Tok → Except String (Component × List Tok))
    (ts : List Tok)
    (hag : ∀ u, Tok.sizeList u < Tok.sizeList ts → pc1 u = pc2 u) :
    Italic.parseW pc1 ts = Italic.parseW pc2 ts := by
  cases heq : parseIdentTok ts with
  | error e => rw [Italic.parseW, Italic.parseW, heq]
  | ok pr =>
    obtain ⟨s, r1⟩ := pr
    rw [Italic.parseW, Italic.parseW, heq]
    dsimp only
    rw [hag r1 (parseIdentTok_consume ts s r1 heq)]

theorem preParseW_congr
    (pc1 pc2 : List Tok → Except String (Component × List Tok)) (ts : List Tok)
    (hag : ∀ u, Tok.sizeList u < Tok.sizeList ts → pc1 u = pc2 u) :
    Preformatted.parseW pc1 ts = Preformatted.parseW pc2 ts := by
  cases heq : parseIdentTok ts with
  | error e => rw [Preformatted.parseW, Preformatted.parseW, heq]
  | ok pr =>
    obtain ⟨s, r1⟩ := pr
    rw [Preformatted.parseW, Preformatted.parseW, heq]
    dsimp only
    rw [hag r1 (parseIdentTok_consume ts s r1 heq)]

theorem linkParseW_congr (pc1 pc2 : List Tok → Except String (Component × List Tok))
    (ts : List Tok)
    (hag : ∀ u, Tok.sizeList u < Tok.sizeList ts → pc1 u = pc2 u) :
    Link.parseW pc1 ts = Link.parseW pc2 ts := by
  cases heq : parseIdentTok ts with
  | error e => rw [Link.parseW, Link.parseW, heq]
  | ok pr =>
    obtain ⟨s, r1⟩ := pr
    rw [Link.parseW, Link.parseW, heq]
    dsimp only
    rw [hag r1 (parseIdentTok_consume ts s r1 heq)]

theorem ctermParseW_congr
    (pc1 pc2 : List Tok → Except String (Component × List Tok)) (ts : List Tok)
    (hag : ∀ u, Tok.sizeList u < Tok.sizeList ts → pc1 u = pc2 u) :
    ComponentTerm.parseW pc1 ts = ComponentTerm.parseW pc2 ts := by
  rw [ComponentTerm.parseW, ComponentTerm.parseW,
    boldParseW_congr pc1 pc2 ts hag, italicParseW_congr pc1 pc2 ts hag,
    preParseW_congr pc1 pc2 ts hag, linkParseW_congr pc1 pc2 ts hag]

theorem parseInlinableTermW_congr
    (pc1 pc2 : List Tok → Except String (Component × List Tok)) (ts : List Tok)
    (hag : ∀ u, Tok.sizeList u < Tok.sizeList ts → pc1 u = pc2 u) :
    parseInlinableTermW pc1 ts = parseInlinableTermW pc2 ts := by
  rw [parseInlinableTermW, parseInlinableTermW,
    ctermParseW_congr pc1 pc2 ts hag]

theorem Component.parseStep_congr
    (pc1 pc2 : List Tok → Except String (Component × List Tok)) (ts : List Tok)
    (hag : ∀ u, Tok.sizeList u < Tok.sizeList ts → pc1 u = pc2 u)
    (hb2 : ∀ u c r, pc2 u = .ok (c, r) → Tok.sizeList r ≤ Tok.sizeList u) :
    Component.parseStep pc1 ts = Component.parseStep pc2 ts := by
  unfold Component.parseStep
  by_cases hpk : Component.peek ts
  · rw [if_pos hpk, if_pos hpk]
    cases ts with
    | nil => exact absurd hpk (by decide)
    | cons t rest =>
      have htermC := parseInlinableTermW_congr pc1 pc2 (t :: rest) hag
      cases t with
      | paren g =>
        have hsz : Tok.sizeList (Tok.paren g :: rest) =
            1 + Tok.sizeList g + Tok.sizeList rest := rfl
        dsimp only
        rw [hag g (by omega), hag rest (sizeList_tail_lt _ _)]
      | ident s =>
        dsimp only
        rw [htermC]
        cases heqt : parseInlinableTermW pc2 (Tok.ident s :: rest) with
        | error e => rfl
        | ok pr =>
          obtain ⟨t₀, r1⟩ := pr
          dsimp only
          rw [hag r1 (parseInlinableTermW_consume pc2 hb2 _ t₀ r1 heqt)]
      | litStr s =>
        dsimp only
        rw [htermC]
        cases heqt : parseInlinableTermW pc2 (Tok.litStr s :: rest) with
        | error e => rfl
        | ok pr =>
          obtain ⟨t₀, r1⟩ := pr
          dsimp only
          rw [hag r1 (parseInlinableTermW_consume pc2 hb2 _ t₀ r1 heqt)]
      | punct c =>
        dsimp only
        rw [htermC]
        cases heqt : parseInlinableTermW pc2 (Tok.punct c :: rest) with
        | error e => rfl
        | ok pr =>
          obtain ⟨t₀, r1⟩ := pr
          dsimp only
          rw [hag r1 (parseInlinableTermW_consume pc2 hb2 _ t₀ r1 heqt)]
      | bracket g =>
        dsimp only
        rw [htermC]
        cases heqt : parseInlinableTermW pc2 (Tok.bracket g :: rest) with
        | error e => rfl
        | ok pr =>
          obtain ⟨t₀, r1⟩ := pr
          dsimp only
          rw [hag r1 (parseInlinableTermW_consume pc2 hb2 _ t₀ r1 heqt)]
  · rw [if_neg hpk, if_neg hpk]

end Ast

namespace Ast

/-- Any two sufficient fuels give the same result: the loop/recursion depth of
`Component::parse` is bounded by the token count, so the fuel is an artifact of
the embedding, not of the source. -/
theorem Component.parse_irrel (n : Nat) :
    ∀ (ts : List Tok), Tok.sizeList ts ≤ n →
      ∀ (f1 f2 : Nat), Tok.sizeList ts < f1 → Tok.sizeList ts < f2 →
        Component.parse f1 ts = Component.parse f2 ts := by
  induction n using Nat.strong_induction_on with
  | _ n ihn =>
    intro ts hle f1 f2 h1 h2
    cases f1 with
    | zero => omega
    | succ g1 =>
      cases f2 with
      | zero => omega
      | succ g2 =>
        show Component.parseStep (Component.parse g1) ts =
          Component.parseStep (Component.parse g2) ts
        apply Component.parseStep_congr
        · intro u hu
          exact ihn (Tok.sizeList u) (by omega) u le_rfl g1 g2 (by omega) (by omega)
        · exact Component.parse_bound g2

end Ast

namespace Ast

theorem parseIdentTok_append (ts v : List Tok) (s : String) (r : List Tok)
    (h : parseIdentTok ts = .ok (s, r)) :
    parseIdentTok (ts ++ v) = .ok (s, r ++ v) := by
  cases ts with
  | nil => exact Except.noConfusion h
  | cons t rest =>
    cases t <;> try exact Except.noConfusion h
    cases h
    rfl

theorem parseLitStrTok_append (ts v : List Tok) (s : String) (r : List Tok)
    (h : parseLitStrTok ts = .ok (s, r)) :
    parseLitStrTok (ts ++ v) = .ok (s, r ++ v) := by
  cases ts with
  | nil => exact Except.noConfusion h
  | cons t rest =>
    cases t <;> try exact Except.noConfusion h
    cases h
    rfl

theorem parsePunctTok_append (c : Char) (ts v : List Tok) (u : Unit)
    (r : List Tok) (h : parsePunctTok c ts = .ok (u, r)) :
    parsePunctTok c (ts ++ v) = .ok (u, r ++ v) := by
  cases ts with
  | nil => exact Except.noConfusion h
  | cons t rest =>
    cases t <;> try exact Except.noConfusion h
    rename_i c₀
    by_cases hc : c₀ = c
    · have hred : parsePunctTok c (Tok.punct c₀ :: rest) = .ok ((), rest) := by
        show (if c₀ = c then (Except.ok ((), rest) : Except String (Unit × List Tok))
          else .error "expected punctuation") = .ok ((), rest)
        rw [if_pos hc]
      rw [hred] at h
      cases h
      show (if c₀ = c then (Except.ok ((), r ++ v) : Except String (Unit × List Tok))
        else .error "expected punctuation") = .ok ((), r ++ v)
      rw [if_pos hc]
    · have hred : parsePunctTok c (Tok.punct c₀ :: rest) =
          .error "expected punctuation" := by
        show (if c₀ = c then (Except.ok ((), rest) : Except String (Unit × List Tok))
          else .error "expected punctuation") = _
        rw [if_neg hc]
      rw [hred] at h
      exact Except.noConfusion h

theorem textParse_append (ts v : List Tok) (t : Text) (r : List Tok)
    (h : Text.parse ts = .ok (t, r)) : Text.parse (ts ++ v) = .ok (t, r ++ v) := by
  rw [Text.parse] at h
  cases heq : parseLitStrTok ts with
  | error e => rw [heq] at h; exact Except.noConfusion h
  | ok pr =>
    obtain ⟨s, r1⟩ := pr
    rw [heq] at h
    cases h
    rw [Text.parse, parseLitStrTok_append ts v s r heq]

theorem internalLocParse_append (ts v : List Tok) (l : InternalLoc) (r : List Tok)
    (h : InternalLoc.parse ts = .ok (l, r)) :
    InternalLoc.parse (ts ++ v) = .ok (l, r ++ v) := by
  rw [InternalLoc.parse] at h
  cases heq1 : parsePunctTok '/' ts with
  | error e => rw [heq1] at h; exact Except.noConfusion h
  | ok pr =>
    obtain ⟨u, r1⟩ := pr
    rw [heq1] at h
    dsimp only at h
    cases heq2 : parseLitStrTok r1 with
    | error e => rw [heq2] at h; exact Except.noConfusion h
    | ok pr2 =>
      obtain ⟨s, r2⟩ := pr2
      rw [heq2] at h
      cases h
      rw [InternalLoc.parse, parsePunctTok_append '/' ts v u r1 heq1]
      dsimp only
      rw [parseLitStrTok_append r1 v s r heq2]

theorem urlParse_append (ts v : List Tok) (l : Url) (r : List Tok)
    (h : Url.parse ts = .ok (l, r)) :
    Url.parse (ts ++ v) = .ok (l, r ++ v) := by
  rw [Url.parse] at h
  cases heq1 : parsePunctTok '@' ts with
  | error e => rw [heq1] at h; exact Except.noConfusion h
  | ok pr =>
    obtain ⟨u, r1⟩ := pr
    rw [heq1] at h
    dsimp only at h
    cases heq2 : parseLitStrTok r1 with
    | error e => rw [heq2] at h; exact Except.noConfusion h
    | ok pr2 =>
      obtain ⟨s, r2⟩ := pr2
      rw [heq2] at h
      cases h
      rw [Url.parse, parsePunctTok_append '@' ts v u r1 heq1]
      dsimp only
      rw [parseLitStrTok_append r1 v s r heq2]

theorem locationParse_append (ts v : List Tok) (l : Location) (r : List Tok)
    (hne : ts ≠ []) (h : Location.parse ts = .ok (l, r)) :
    Location.parse (ts ++ v) = .ok (l, r ++ v) := by
  rw [Location.parse] at h
  rw [Location.parse]
  simp only [InternalLoc.peek, Url.peek] at h ⊢
  by_cases h1 : peekPunct '/' ts
  · have h1' : peekPunct '/' (ts ++ v) = true := by
      rw [peekPunct_append '/' ts v hne]; exact h1
    rw [if_pos h1] at h
    rw [if_pos h1']
    cases heq : InternalLoc.parse ts with
    | error e => rw [heq] at h; exact Except.noConfusion h
    | ok pr =>
      obtain ⟨il, r1⟩ := pr
      rw [heq] at h
      cases h
      rw [internalLocParse_append ts v il r heq]
  · have h1' : ¬ peekPunct '/' (ts ++ v) = true := by
      rw [peekPunct_append '/' ts v hne]; exact h1
    rw [if_neg h1] at h
    rw [if_neg h1']
    by_cases h2 : peekPunct '@' ts
    · have h2' : peekPunct '@' (ts ++ v) = true := by
        rw [peekPunct_append '@' ts v hne]; exact h2
      rw [if_pos h2] at h
      rw [if_pos h2']
      cases heq : Url.parse ts with
      | error e => rw [heq] at h; exact Except.noConfusion h
      | ok pr =>
        obtain ⟨ul, r1⟩ := pr
        rw [heq] at h
        cases h
        rw [urlParse_append ts v ul r heq]
    · rw [if_neg h2] at h
      exact Except.noConfusion h

theorem inlineRustParse_append (ts v : List Tok) (ir : InlineRust) (r : List Tok)
    (h : InlineRust.parse ts = .ok (ir, r)) :
    InlineRust.parse (ts ++ v) = .ok (ir, r ++ v) := by
  rw [InlineRust.parse] at h
  cases heq1 : parsePunctTok '$' ts with
  | error e => rw [heq1] at h; exact Except.noConfusion h
  | ok pr =>
    obtain ⟨u, r1⟩ := pr
    rw [heq1] at h
    dsimp only at h
    rw [InlineRust.parse, parsePunctTok_append '$' ts v u r1 heq1]
    dsimp only
    cases r1 with
    | nil => exact Except.noConfusion h
    | cons t rest =>
      cases t <;> try exact Except.noConfusion h
      cases h
      rfl

theorem parseInlinableLocation_append (ts v : List Tok) (loc : Inlinable Location)
    (r : List Tok) (hne : ts ≠ []) (h : parseInlinableLocation ts = .ok (loc, r)) :
    parseInlinableLocation (ts ++ v) = .ok (loc, r ++ v) := by
  rw [parseInlinableLocation] at h
  rw [parseInlinableLocation]
  simp only [InlineRust.peek] at h ⊢
  by_cases h1 : peekPunct '$' ts
  · have h1' : peekPunct '$' (ts ++ v) = true := by
      rw [peekPunct_append '$' ts v hne]; exact h1
    rw [if_pos h1] at h
    rw [if_pos h1']
    cases heq : InlineRust.parse ts with
    | error e => rw [heq] at h; exact Except.noConfusion h
    | ok pr =>
      obtain ⟨ir, r1⟩ := pr
      rw [heq] at h
      cases h
      rw [inlineRustParse_append ts v ir r heq]
  · have h1' : ¬ peekPunct '$' (ts ++ v) = true := by
      rw [peekPunct_append '$' ts v hne]; exact h1
    rw [if_neg h1] at h
    rw [if_neg h1']
    cases heq : Location.parse ts with
    | error e => rw [heq] at h; exact Except.noConfusion h
    | ok pr =>
      obtain ⟨l, r1⟩ := pr
      rw [heq] at h
      cases h
      rw [locationParse_append ts v l r hne heq]

end Ast

namespace Ast

theorem parseInlinableLocation_nil :
    parseInlinableLocation ([] : List Tok) = .error "Expected `/` or `@`" := rfl

theorem boldParseW_ext
    (pc pc' : List Tok → Except String (Component × List Tok))
    (v ts : List Tok)
    (hA : ∀ u, Tok.sizeList u < Tok.sizeList ts → ∀ c r, pc u = .ok (c, r) →
      r ≠ [] → pc' (u ++ v) = .ok (c, r ++ v))
    (hB : ∀ u, Tok.sizeList u < Tok.sizeList ts → ∀ c, pc u = .ok (c, []) →
      ∃ c', pc' (u ++ v) = .ok (c', []))
    (b : Bold) (r : List Tok) (h : Bold.parseW pc ts = .ok (b, r)) :
    (r ≠ [] → Bold.parseW pc' (ts ++ v) = .ok (b, r ++ v)) ∧
    (r = [] → ∃ b₂, Bold.parseW pc' (ts ++ v) = .ok (b₂, [])) := by
  rw [Bold.parseW] at h
  cases heq : parseIdentTok ts with
  | error e => rw [heq] at h; exact Except.noConfusion h
  | ok pr =>
    obtain ⟨s, r1⟩ := pr
    rw [heq] at h
    dsimp only at h
    by_cases hs : s = "b"
    case neg => rw [if_neg hs] at h; exact Except.noConfusion h
    rw [if_pos hs] at h
    cases heqc : pc r1 with
    | error e => rw [heqc] at h; exact Except.noConfusion h
    | ok pr2 =>
      obtain ⟨c1, r2⟩ := pr2
      rw [heqc] at h
      cases h
      have hlt : Tok.sizeList r1 < Tok.sizeList ts := parseIdentTok_consume ts s r1 heq
      constructor
      · intro hr
        rw [Bold.parseW, parseIdentTok_append ts v s r1 heq]
        dsimp only
        rw [if_pos hs, hA r1 hlt c1 r heqc hr]
      · intro hr
        subst hr
        obtain ⟨c', hc'⟩ := hB r1 hlt c1 heqc
        refine ⟨⟨c'⟩, ?_⟩
        rw [Bold.parseW, parseIdentTok_append ts v s r1 heq]
        dsimp only
        rw [if_pos hs, hc']

theorem italicParseW_ext
    (pc pc' : List Tok → Except String (Component × List Tok))
    (v ts : List Tok)
    (hA : ∀ u, Tok.sizeList u < Tok.sizeList ts → ∀ c r, pc u = .ok (c, r) →
      r ≠ [] → pc' (u ++ v) = .ok (c, r ++ v))
    (hB : ∀ u, Tok.sizeList u < Tok.sizeList ts → ∀ c, pc u = .ok (c, []) →
      ∃ c', pc' (u ++ v) = .ok (c', []))
    (b : Italic) (r : List Tok) (h : Italic.parseW pc ts = .ok (b, r)) :
    (r ≠ [] → Italic.parseW pc' (ts ++ v) = .ok (b, r ++ v)) ∧
    (r = [] → ∃ b₂, Italic.parseW pc' (ts ++ v) = .ok (b₂, [])) := by
  rw [Italic.parseW] at h
  cases heq : parseIdentTok ts with
  | error e => rw [heq] at h; exact Except.noConfusion h
  | ok pr =>
    obtain ⟨s, r1⟩ := pr
    rw [heq] at h
    dsimp only at h
    by_cases hs : s = "i"
    case neg => rw [if_neg hs] at h; exact Except.noConfusion h
    rw [if_pos hs] at h
    cases heqc : pc r1 with
    | error e => rw [heqc] at h; exact Except.noConfusion h
    | ok pr2 =>
      obtain ⟨c1, r2⟩ := pr2
      rw [heqc] at h
      cases h
      have hlt : Tok.sizeList r1 < Tok.sizeList ts := parseIdentTok_consume ts s r1 heq
      constructor
      · intro hr
        rw [Italic.parseW, parseIdentTok_append ts v s r1 heq]
        dsimp only
        rw [if_pos hs, hA r1 hlt c1 r heqc hr]
      · intro hr
        subst hr
        obtain ⟨c', hc'⟩ := hB r1 hlt c1 heqc
        refine ⟨⟨c'⟩, ?_⟩
        rw [Italic.parseW, parseIdentTok_append ts v s r1 heq]
        dsimp only
        rw [if_pos hs, hc']

theorem preParseW_ext
    (pc pc' : List Tok → Except String (Component × List Tok))
    (v ts : List Tok)
    (hA : ∀ u, Tok.sizeList u < Tok.sizeList ts → ∀ c r, pc u = .ok (c, r) →
      r ≠ [] → pc' (u ++ v) = .ok (c, r ++ v))
    (hB : ∀ u, Tok.sizeList u < Tok.sizeList ts → ∀ c, pc u = .ok (c, []) →
      ∃ c', pc' (u ++ v) = .ok (c', []))
    (b : Preformatted) (r : List Tok) (h : Preformatted.parseW pc ts = .ok (b, r)) :
    (r ≠ [] → Preformatted.parseW pc' (ts ++ v) = .ok (b, r ++ v)) ∧
    (r = [] → ∃ b₂, Preformatted.parseW pc' (ts ++ v) = .ok (b₂, [])) := by
  rw [Preformatted.parseW] at h
  cases heq : parseIdentTok ts with
  | error e => rw [heq] at h; exact Except.noConfusion h
  | ok pr =>
    obtain ⟨s, r1⟩ := pr
    rw [heq] at h
    dsimp only at h
    by_cases hs : s = "c"
    case neg => rw [if_neg hs] at h; exact Except.noConfusion h
    rw [if_pos hs] at h
    cases heqc : pc r1 with
    | error e => rw [heqc] at h; exact Except.noConfusion h
    | ok pr2 =>
      obtain ⟨c1, r2⟩ := pr2
      rw [heqc] at h
      cases h
      have hlt : Tok.sizeList r1 < Tok.sizeList ts := parseIdentTok_consume ts s r1 heq
      constructor
      · intro hr
        rw [Preformatted.parseW, parseIdentTok_append ts v s r1 heq]
        dsimp only
        rw [if_pos hs, hA r1 hlt c1 r heqc hr]
      · intro hr
        subst hr
        obtain ⟨c', hc'⟩ := hB r1 hlt c1 heqc
        refine ⟨⟨c'⟩, ?_⟩
        rw [Preformatted.parseW, parseIdentTok_append ts v s r1 heq]
        dsimp only
        rw [if_pos hs, hc']

theorem linkParseW_ext
    (pc pc' : List Tok → Except String (Component × List Tok))
    (v ts : List Tok)
    (hA : ∀ u, Tok.sizeList u < Tok.sizeList ts → ∀ c r, pc u = .ok (c, r) →
      r ≠ [] → pc' (u ++ v) = .ok (c, r ++ v))
    (lk : Link) (r : List Tok) (h : Link.parseW pc ts = .ok (lk, r)) :
    Link.parseW pc' (ts ++ v) = .ok (lk, r ++ v) := by
  rw [Link.parseW] at h
  cases heq : parseIdentTok ts with
  | error e => rw [heq] at h; exact Except.noConfusion h
  | ok pr =>
    obtain ⟨s, r1⟩ := pr
    rw [heq] at h
    dsimp only at h
    by_cases hs : s = "l"
    case neg => rw [if_neg hs] at h; exact Except.noConfusion h
    rw [if_pos hs] at h
    cases heqc : pc r1 with
    | error e => rw [heqc] at h; exact Except.noConfusion h
    | ok pr2 =>
      obtain ⟨c1, r2⟩ := pr2
      rw [heqc] at h
      dsimp only at h
      cases heql : parseInlinableLocation r2 with
      | error e => rw [heql] at h; exact Except.noConfusion h
      | ok pr3 =>
        obtain ⟨loc, r3⟩ := pr3
        rw [heql] at h
        cases h
        have hr2 : r2 ≠ [] := by
          intro hr2
          subst hr2
          rw [parseInlinableLocation_nil] at heql
          exact Except.noConfusion heql
        have hlt : Tok.sizeList r1 < Tok.sizeList ts := parseIdentTok_consume ts s r1 heq
        rw [Link.parseW, parseIdentTok_append ts v s r1 heq]
        dsimp only
        rw [if_pos hs, hA r1 hlt c1 r2 heqc hr2]
        dsimp only
        rw [parseInlinableLocation_append r2 v loc r hr2 heql]

end Ast

namespace Ast

theorem ctermParseW_ext
    (pc pc' : List Tok → Except String (Component × List Tok))
    (v ts : List Tok) (hne : ts ≠ [])
    (hA : ∀ u, Tok.sizeList u < Tok.sizeList ts → ∀ c r, pc u = .ok (c, r) →
      r ≠ [] → pc' (u ++ v) = .ok (c, r ++ v))
    (hB : ∀ u, Tok.sizeList u < Tok.sizeList ts → ∀ c, pc u = .ok (c, []) →
      ∃ c', pc' (u ++ v) = .ok (c', []))
    (t : ComponentTerm) (r : List Tok) (h : ComponentTerm.parseW pc ts = .ok (t, r)) :
    (r ≠ [] → ComponentTerm.parseW pc' (ts ++ v) = .ok (t, r ++ v)) ∧
    (r = [] → (∃ t₂, ComponentTerm.parseW pc' (ts ++ v) = .ok (t₂, [])) ∨
      ComponentTerm.parseW pc' (ts ++ v) = .ok (t, v)) := by
  rw [ComponentTerm.parseW] at h
  rw [ComponentTerm.parseW]
  by_cases h1 : Text.peek ts
  · have h1' : Text.peek (ts ++ v) = true := by
      simp only [Text.peek] at h1 ⊢; rw [peekLitStr_append ts v hne]; exact h1
    rw [if_pos h1] at h
    rw [if_pos h1']
    cases heq : Text.parse ts with
    | error e => rw [heq] at h; exact Except.noConfusion h
    | ok pr =>
      obtain ⟨tx, r1⟩ := pr
      rw [heq] at h
      cases h
      rw [textParse_append ts v tx r heq]
      constructor
      · intro _; rfl
      · intro hr; subst hr; exact Or.inr rfl
  · have h1' : ¬ Text.peek (ts ++ v) = true := by
      simp only [Text.peek] at h1 ⊢; rw [peekLitStr_append ts v hne]; exact h1
    rw [if_neg h1] at h
    rw [if_neg h1']
    by_cases h2 : Location.peek ts
    · have h2' : Location.peek (ts ++ v) = true := by
        simp only [Location.peek, InternalLoc.peek, Url.peek] at h2 ⊢
        rw [peekPunct_append '/' ts v hne, peekPunct_append '@' ts v hne]; exact h2
      rw [if_pos h2] at h
      rw [if_pos h2']
      cases heq : Location.parse ts with
      | error e => rw [heq] at h; exact Except.noConfusion h
      | ok pr =>
        obtain ⟨lc, r1⟩ := pr
        rw [heq] at h
        cases h
        rw [locationParse_append ts v lc r hne heq]
        constructor
        · intro _; rfl
        · intro hr; subst hr; exact Or.inr rfl
    · have h2' : ¬ Location.peek (ts ++ v) = true := by
        simp only [Location.peek, InternalLoc.peek, Url.peek] at h2 ⊢
        rw [peekPunct_append '/' ts v hne, peekPunct_append '@' ts v hne]; exact h2
      rw [if_neg h2] at h
      rw [if_neg h2']
      by_cases h3 : Bold.peek ts
      · have h3' : Bold.peek (ts ++ v) = true := by
          simp only [Bold.peek] at h3 ⊢
          rw [peekIdentEq_append "b" ts v hne]; exact h3
        rw [if_pos h3] at h
        rw [if_pos h3']
        cases heq : Bold.parseW pc ts with
        | error e => rw [heq] at h; exact Except.noConfusion h
        | ok pr =>
          obtain ⟨b, r1⟩ := pr
          rw [heq] at h
          cases h
          have hext := boldParseW_ext pc pc' v ts hA hB b r heq
          constructor
          · intro hr
            rw [hext.1 hr]
          · intro hr
            obtain ⟨b₂, hb₂⟩ := hext.2 hr
            refine Or.inl ⟨.bold b₂, ?_⟩
            rw [hb₂]
      · have h3' : ¬ Bold.peek (ts ++ v) = true := by
          simp only [Bold.peek] at h3 ⊢
          rw [peekIdentEq_append "b" ts v hne]; exact h3
        rw [if_neg h3] at h
        rw [if_neg h3']
        by_cases h4 : Italic.peek ts
        · have h4' : Italic.peek (ts ++ v) = true := by
            simp only [Italic.peek] at h4 ⊢
            rw [peekIdentEq_append "i" ts v hne]; exact h4
          rw [if_pos h4] at h
          rw [if_pos h4']
          cases heq : Italic.parseW pc ts with
          | error e => rw [heq] at h; exact Except.noConfusion h
          | ok pr =>
            obtain ⟨b, r1⟩ := pr
            rw [heq] at h
            cases h
            have hext := italicParseW_ext pc pc' v ts hA hB b r heq
            constructor
            · intro hr
              rw [hext.1 hr]
            · intro hr
              obtain ⟨b₂, hb₂⟩ := hext.2 hr
              refine Or.inl ⟨.italic b₂, ?_⟩
              rw [hb₂]
        · have h4' : ¬ Italic.peek (ts ++ v) = true := by
            simp only [Italic.peek] at h4 ⊢
            rw [peekIdentEq_append "i" ts v hne]; exact h4
          rw [if_neg h4] at h
          rw [if_neg h4']
          by_cases h5 : Preformatted.peek ts
          · have h5' : Preformatted.peek (ts ++ v) = true := by
              simp only [Preformatted.peek] at h5 ⊢
              rw [peekIdentEq_append "c" ts v hne]; exact h5
            rw [if_pos h5] at h
            rw [if_pos h5']
            cases heq : Preformatted.parseW pc ts with
            | error e => rw [heq] at h; exact Except.noConfusion h
            | ok pr =>
              obtain ⟨b, r1⟩ := pr
              rw [heq] at h
              cases h
              have hext := preParseW_ext pc pc' v ts hA hB b r heq
              constructor
              · intro hr
                rw [hext.1 hr]
              · intro hr
                obtain ⟨b₂, hb₂⟩ := hext.2 hr
                refine Or.inl ⟨.preformatted b₂, ?_⟩
                rw [hb₂]
          · have h5' : ¬ Preformatted.peek (ts ++ v) = true := by
              simp only [Preformatted.peek] at h5 ⊢
              rw [peekIdentEq_append "c" ts v hne]; exact h5
            rw [if_neg h5] at h
            rw [if_neg h5']
            by_cases h6 : Link.peek ts
            · have h6' : Link.peek (ts ++ v) = true := by
                simp only [Link.peek] at h6 ⊢
                rw [peekIdentEq_append "l" ts v hne]; exact h6
              rw [if_pos h6] at h
              rw [if_pos h6']
              cases heq : Link.parseW pc ts with
              | error e => rw [heq] at h; exact Except.noConfusion h
              | ok pr =>
                obtain ⟨lk, r1⟩ := pr
                rw [heq] at h
                cases h
                have hext := linkParseW_ext pc pc' v ts hA lk r heq
                rw [hext]
                constructor
                · intro _; rfl
                · intro hr; subst hr; exact Or.inr rfl
            · rw [if_neg h6] at h
              exact Except.noConfusion h

theorem parseInlinableTermW_ext
    (pc pc' : List Tok → Except String (Component × List Tok))
    (v ts : List Tok) (hne : ts ≠ [])
    (hA : ∀ u, Tok.sizeList u < Tok.sizeList ts → ∀ c r, pc u = .ok (c, r) →
      r ≠ [] → pc' (u ++ v) = .ok (c, r ++ v))
    (hB : ∀ u, Tok.sizeList u < Tok.sizeList ts → ∀ c, pc u = .ok (c, []) →
      ∃ c', pc' (u ++ v) = .ok (c', []))
    (t : Inlinable ComponentTerm) (r : List Tok)
    (h : parseInlinableTermW pc ts = .ok (t, r)) :
    (r ≠ [] → parseInlinableTermW pc' (ts ++ v) = .ok (t, r ++ v)) ∧
    (r = [] → (∃ t₂, parseInlinableTermW pc' (ts ++ v) = .ok (t₂, [])) ∨
      parseInlinableTermW pc' (ts ++ v) = .ok (t, v)) := by
  rw [parseInlinableTermW] at h
  rw [parseInlinableTermW]
  simp only [InlineRust.peek] at h ⊢
  by_cases h1 : peekPunct '$' ts
  · have h1' : peekPunct '$' (ts ++ v) = true := by
      rw [peekPunct_append '$' ts v hne]; exact h1
    rw [if_pos h1] at h
    rw [if_pos h1']
    cases heq : InlineRust.parse ts with
    | error e => rw [heq] at h; exact Except.noConfusion h
    | ok pr =>
      obtain ⟨ir, r1⟩ := pr
      rw [heq] at h
      cases h
      rw [inlineRustParse_append ts v ir r heq]
      constructor
      · intro _; rfl
      · intro hr; subst hr; exact Or.inr rfl
  · have h1' : ¬ peekPunct '$' (ts ++ v) = true := by
      rw [peekPunct_append '$' ts v hne]; exact h1
    rw [if_neg h1] at h
    rw [if_neg h1']
    cases heq : ComponentTerm.parseW pc ts with
    | error e => rw [heq] at h; exact Except.noConfusion h
    | ok pr =>
      obtain ⟨ct, r1⟩ := pr
      rw [heq] at h
      cases h
      have hext := ctermParseW_ext pc pc' v ts hne hA hB ct r heq
      constructor
      · intro hr
        rw [hext.1 hr]
      · intro hr
        rcases hext.2 hr with ⟨t₂, ht₂⟩ | ht₂
        · refine Or.inl ⟨.plain t₂, ?_⟩
          rw [ht₂]
        · refine Or.inr ?_
          rw [ht₂]

end Ast

namespace Ast

theorem Component.parse3_slash (s : String) :
    Component.parse 3 [Tok.punct '/', Tok.litStr s] =
      .ok (Component.mk [.plain (.location (.internal ⟨s⟩))], []) := rfl

theorem Component.parse3_at (s : String) :
    Component.parse 3 [Tok.punct '@', Tok.litStr s] =
      .ok (Component.mk [.plain (.location (.url ⟨s⟩))], []) := rfl

theorem Component.parseStep_nonparen
    (pc : List Tok → Except String (Component × List Tok)) (t : Tok)
    (rest : List Tok) (hnp : ∀ g, t ≠ .paren g)
    (hpk : Component.peek (t :: rest) = true) :
    Component.parseStep pc (t :: rest) =
      (match parseInlinableTermW pc (t :: rest) with
       | .ok (tm, r) =>
         (match pc r with
          | .ok (c, rr) =>
            (.ok (.mk (tm :: c.terms), rr) : Except String (Component × List Tok))
          | .error e => .error e)
       | .error e => .error e) := by
  unfold Component.parseStep
  rw [if_pos hpk]
  cases t with
  | paren g => exact absurd rfl (hnp g)
  | ident s => rfl
  | litStr s => rfl
  | punct c => rfl
  | bracket g => rfl

end Ast


namespace Ast

/-- Appending a literal location (`/` STRING or `@` STRING) to a stream the
component loop accepts: if the loop left a nonempty remainder it is unaffected
(it stopped at a non-term token); if it consumed the whole stream it also
consumes the appended location, absorbing it as one more term (possibly inside
the last nestable term). -/
theorem Component.parse_ext (p : Char) (s : String) (hp : p = '/' ∨ p = '@')
    (n : Nat) :
    ∀ ts : List Tok, Tok.sizeList ts ≤ n →
      ∀ f f' : Nat, Tok.sizeList ts < f → Tok.sizeList ts + 3 < f' →
        ∀ c r, Component.parse f ts = .ok (c, r) →
          (r ≠ [] → Component.parse f' (ts ++ [Tok.punct p, Tok.litStr s]) =
            .ok (c, r ++ [Tok.punct p, Tok.litStr s])) ∧
          (r = [] → ∃ c', Component.parse f' (ts ++ [Tok.punct p, Tok.litStr s]) =
            .ok (c', [])) := by
  induction n using Nat.strong_induction_on with
  | _ n ihn =>
    intro ts hle f f' hf hf' c r h
    cases f with
    | zero => exact absurd hf (Nat.not_lt_zero _)
    | succ g =>
      cases f' with
      | zero => exact absurd hf' (Nat.not_lt_zero _)
      | succ g' =>
        have hszext : Tok.sizeList [Tok.punct p, Tok.litStr s] = 2 := rfl
        have hbase : ∃ cext, Component.parse g' [Tok.punct p, Tok.litStr s] =
            .ok (cext, []) := by
          rcases hp with hp | hp <;> subst hp
          · rw [Component.parse_irrel 2 [Tok.punct '/', Tok.litStr s] (by omega)
              g' 3 (by omega) (by omega)]
            exact ⟨_, Component.parse3_slash s⟩
          · rw [Component.parse_irrel 2 [Tok.punct '@', Tok.litStr s] (by omega)
              g' 3 (by omega) (by omega)]
            exact ⟨_, Component.parse3_at s⟩
        have IH : ∀ u, Tok.sizeList u < Tok.sizeList ts →
            ∀ c₀ r₀, Component.parse g u = .ok (c₀, r₀) →
              (r₀ ≠ [] → Component.parse g' (u ++ [Tok.punct p, Tok.litStr s]) =
                .ok (c₀, r₀ ++ [Tok.punct p, Tok.litStr s])) ∧
              (r₀ = [] → ∃ c', Component.parse g'
                (u ++ [Tok.punct p, Tok.litStr s]) = .ok (c', [])) := by
          intro u hu c₀ r₀ hpc
          exact ihn (Tok.sizeList u) (by omega) u le_rfl g g' (by omega) (by omega)
            c₀ r₀ hpc
        have hA : ∀ u, Tok.sizeList u < Tok.sizeList ts →
            ∀ c₀ r₀, Component.parse g u = .ok (c₀, r₀) → r₀ ≠ [] →
              Component.parse g' (u ++ [Tok.punct p, Tok.litStr s]) =
                .ok (c₀, r₀ ++ [Tok.punct p, Tok.litStr s]) :=
          fun u hu c₀ r₀ hpc hr => (IH u hu c₀ r₀ hpc).1 hr
        have hB : ∀ u, Tok.sizeList u < Tok.sizeList ts →
            ∀ c₀, Component.parse g u = .ok (c₀, []) →
              ∃ c', Component.parse g' (u ++ [Tok.punct p, Tok.litStr s]) =
                .ok (c', []) :=
          fun u hu c₀ hpc => (IH u hu c₀ [] hpc).2 rfl
        rw [show Component.parse (g + 1) ts =
          Component.parseStep (Component.parse g) ts from rfl] at h
        by_cases hpk : Component.peek ts
        case neg =>
          unfold Component.parseStep at h
          rw [if_neg hpk] at h
          cases h
          constructor
          · intro hr
            have hpk' : ¬ Component.peek
                (ts ++ [Tok.punct p, Tok.litStr s]) = true := by
              rw [componentPeek_append ts [Tok.punct p, Tok.litStr s] hr]
              exact hpk
            show Component.parseStep (Component.parse g')
              (ts ++ [Tok.punct p, Tok.litStr s]) =
              .ok (.mk [], ts ++ [Tok.punct p, Tok.litStr s])
            unfold Component.parseStep
            rw [if_neg hpk']
          · intro hr
            subst hr
            obtain ⟨cext, hcext⟩ := hbase
            refine ⟨cext, ?_⟩
            show Component.parse (g' + 1) [Tok.punct p, Tok.litStr s] =
              .ok (cext, [])
            have h0 : Tok.sizeList ([] : List Tok) = 0 := rfl
            rw [Component.parse_irrel 2 [Tok.punct p, Tok.litStr s] (by omega)
              (g' + 1) g' (by omega) (by omega)]
            exact hcext
        case pos =>
          cases ts with
          | nil => exact absurd hpk (by decide)
          | cons t rest =>
            have hg1 : 1 ≤ Tok.sizeList (t :: rest) := by
              have := Tok.size_pos t
              rw [sizeList_cons]
              omega
            by_cases hparen : ∃ g₀, t = Tok.paren g₀
            · obtain ⟨g₀, rfl⟩ := hparen
              unfold Component.parseStep at h
              rw [if_pos hpk] at h
              dsimp only at h
              cases heq1 : Component.parse g g₀ with
              | error e => rw [heq1] at h; exact Except.noConfusion h
              | ok pr =>
                obtain ⟨child, rg⟩ := pr
                rw [heq1] at h
                cases rg with
                | cons t₀ rest₀ => exact Except.noConfusion h
                | nil =>
                  dsimp only at h
                  cases heq2 : Component.parse g rest with
                  | error e => rw [heq2] at h; exact Except.noConfusion h
                  | ok pr2 =>
                    obtain ⟨c₂, rr⟩ := pr2
                    rw [heq2] at h
                    cases h
                    have hszg : Tok.sizeList (Tok.paren g₀ :: rest) =
                        1 + Tok.sizeList g₀ + Tok.sizeList rest := rfl
                    have hchild : Component.parse g' g₀ = .ok (child, []) := by
                      rw [← Component.parse_irrel (Tok.sizeList g₀) g₀ le_rfl
                        g g' (by omega) (by omega)]
                      exact heq1
                    have hIH2 := IH rest (by omega) c₂ r heq2
                    constructor
                    · intro hr
                      have hrest := hIH2.1 hr
                      show Component.parseStep (Component.parse g')
                        (Tok.paren g₀ :: (rest ++ [Tok.punct p, Tok.litStr s])) =
                        .ok (.mk (child.terms ++ c₂.terms),
                          r ++ [Tok.punct p, Tok.litStr s])
                      unfold Component.parseStep
                      rw [if_pos (show Component.peek (Tok.paren g₀ ::
                        (rest ++ [Tok.punct p, Tok.litStr s])) = true from rfl)]
                      dsimp only
                      rw [hchild]
                      dsimp only
                      rw [hrest]
                    · intro hr
                      subst hr
                      obtain ⟨c₂', hrest⟩ := hIH2.2 rfl
                      refine ⟨.mk (child.terms ++ c₂'.terms), ?_⟩
                      show Component.parseStep (Component.parse g')
                        (Tok.paren g₀ :: (rest ++ [Tok.punct p, Tok.litStr s])) =
                        .ok (.mk (child.terms ++ c₂'.terms), [])
                      unfold Component.parseStep
                      rw [if_pos (show Component.peek (Tok.paren g₀ ::
                        (rest ++ [Tok.punct p, Tok.litStr s])) = true from rfl)]
                      dsimp only
                      rw [hchild]
                      dsimp only
                      rw [hrest]
            · have hnp : ∀ g₀, t ≠ Tok.paren g₀ := fun g₀ hg => hparen ⟨g₀, hg⟩
              rw [Component.parseStep_nonparen (Component.parse g) t rest hnp hpk]
                at h
              cases heqt : parseInlinableTermW (Component.parse g) (t :: rest) with
              | error e => rw [heqt] at h; exact Except.noConfusion h
              | ok pr =>
                obtain ⟨tm, r1⟩ := pr
                rw [heqt] at h
                dsimp only at h
                cases heq2 : Component.parse g r1 with
                | error e => rw [heq2] at h; exact Except.noConfusion h
                | ok pr2 =>
                  obtain ⟨c₂, rr⟩ := pr2
                  rw [heq2] at h
                  cases h
                  have hterm := parseInlinableTermW_ext (Component.parse g)
                    (Component.parse g') [Tok.punct p, Tok.litStr s] (t :: rest)
                    (List.cons_ne_nil t rest) hA hB tm r1 heqt
                  have hlt1 : Tok.sizeList r1 < Tok.sizeList (t :: rest) :=
                    parseInlinableTermW_consume (Component.parse g)
                      (Component.parse_bound g) (t :: rest) tm r1 heqt
                  have hpk' : Component.peek
                      (t :: (rest ++ [Tok.punct p, Tok.litStr s])) = true :=
                    (componentPeek_append (t :: rest)
                      [Tok.punct p, Tok.litStr s] (List.cons_ne_nil t rest)).trans
                      hpk
                  constructor
                  · intro hr
                    have hr1 : r1 ≠ [] := by
                      intro hr1
                      subst hr1
                      have hnil : Component.parse g [] = .ok (.mk [], []) := by
                        cases g with
                        | zero => exact absurd hf (by omega)
                        | succ g₁ => rfl
                      rw [hnil] at heq2
                      cases heq2
                      exact hr rfl
                    have ht' : parseInlinableTermW (Component.parse g')
                        (t :: (rest ++ [Tok.punct p, Tok.litStr s])) =
                        .ok (tm, r1 ++ [Tok.punct p, Tok.litStr s]) := hterm.1 hr1
                    have hrest := (IH r1 hlt1 c₂ r heq2).1 hr
                    show Component.parseStep (Component.parse g')
                      (t :: (rest ++ [Tok.punct p, Tok.litStr s])) =
                      .ok (.mk (tm :: c₂.terms), r ++ [Tok.punct p, Tok.litStr s])
                    rw [Component.parseStep_nonparen (Component.parse g') t
                      (rest ++ [Tok.punct p, Tok.litStr s]) hnp hpk']
                    rw [ht']
                    dsimp only
                    rw [hrest]
                  · intro hr
                    subst hr
                    by_cases hr1 : r1 = []
                    · subst hr1
                      rcases hterm.2 rfl with ⟨t₂, ht₂⟩ | ht₂
                      · refine ⟨.mk [t₂], ?_⟩
                        have ht₂' : parseInlinableTermW (Component.parse g')
                            (t :: (rest ++ [Tok.punct p, Tok.litStr s])) =
                            .ok (t₂, []) := ht₂
                        show Component.parseStep (Component.parse g')
                          (t :: (rest ++ [Tok.punct p, Tok.litStr s])) =
                          .ok (.mk [t₂], [])
                        rw [Component.parseStep_nonparen (Component.parse g') t
                          (rest ++ [Tok.punct p, Tok.litStr s]) hnp hpk']
                        rw [ht₂']
                        dsimp only
                        have hnil' : Component.parse g' [] = .ok (.mk [], []) := by
                          cases g' with
                          | zero => exact absurd hf' (by omega)
                          | succ g₁ => rfl
                        rw [hnil']
                        rfl
                      · obtain ⟨cext, hcext⟩ := hbase
                        refine ⟨.mk (tm :: cext.terms), ?_⟩
                        have ht₂' : parseInlinableTermW (Component.parse g')
                            (t :: (rest ++ [Tok.punct p, Tok.litStr s])) =
                            .ok (tm, [Tok.punct p, Tok.litStr s]) := ht₂
                        show Component.parseStep (Component.parse g')
                          (t :: (rest ++ [Tok.punct p, Tok.litStr s])) =
                          .ok (.mk (tm :: cext.terms), [])
                        rw [Component.parseStep_nonparen (Component.parse g') t
                          (rest ++ [Tok.punct p, Tok.litStr s]) hnp hpk']
                        rw [ht₂']
                        dsimp only
                        rw [hcext]
                    · have ht' : parseInlinableTermW (Component.parse g')
                          (t :: (rest ++ [Tok.punct p, Tok.litStr s])) =
                          .ok (tm, r1 ++ [Tok.punct p, Tok.litStr s]) := hterm.1 hr1
                      obtain ⟨c₂', hrest⟩ := (IH r1 hlt1 c₂ [] heq2).2 rfl
                      refine ⟨.mk (tm :: c₂'.terms), ?_⟩
                      show Component.parseStep (Component.parse g')
                        (t :: (rest ++ [Tok.punct p, Tok.litStr s])) =
                        .ok (.mk (tm :: c₂'.terms), [])
                      rw [Component.parseStep_nonparen (Component.parse g') t
                        (rest ++ [Tok.punct p, Tok.litStr s]) hnp hpk']
                      rw [ht']
                      dsimp only
                      rw [hrest]

end Ast

namespace Ast

theorem ComponentTerm.parseW_l
    (pc : List Tok → Except String (Component × List Tok)) (rest : List Tok) :
    ComponentTerm.parseW pc (Tok.ident "l" :: rest) =
      (match Link.parseW pc (Tok.ident "l" :: rest) with
       | .ok (l, r) => (.ok (.link l, r) : Except String (ComponentTerm × List Tok))
       | .error e => .error e) := rfl

/-- After the keyword `l`, `Component::parse` greedily absorbs a trailing
literal location into the link target (its peek accepts `/` and `@`), so the
subsequent `Inlinable<Location>::parse` hits an empty cursor and the inline
term parse fails. -/
theorem ComponentTerm.parseTop_link_literal_fails (p : Char) (s : String)
    (ic : List Tok) (c : Component) (hp : p = '/' ∨ p = '@')
    (hic : Component.parseTop ic = .ok (c, [])) :
    ComponentTerm.parseTop
      (Tok.ident "l" :: (ic ++ [Tok.punct p, Tok.litStr s])) =
      .error "Expected `/` or `@`" := by
  have hszext : Tok.sizeList [Tok.punct p, Tok.litStr s] = 2 := rfl
  have hsapp : Tok.sizeList (ic ++ [Tok.punct p, Tok.litStr s]) =
      Tok.sizeList ic + 2 := by
    rw [sizeList_append, hszext]
  have hstream : Tok.sizeList
      (Tok.ident "l" :: (ic ++ [Tok.punct p, Tok.litStr s])) =
      Tok.sizeList ic + 3 := by
    rw [sizeList_cons, hsapp, show Tok.size (Tok.ident "l") = 1 from rfl]
    omega
  obtain ⟨c', hc'⟩ := (Component.parse_ext p s hp (Tok.sizeList ic) ic le_rfl
    (Tok.sizeList ic + 1)
    (Tok.sizeList (Tok.ident "l" :: (ic ++ [Tok.punct p, Tok.litStr s])) + 1)
    (by omega) (by omega) c [] hic).2 rfl
  have hlink := Link.parseW_fails_after_full_component
    (Tok.sizeList (Tok.ident "l" :: (ic ++ [Tok.punct p, Tok.litStr s])) + 1)
    (ic ++ [Tok.punct p, Tok.litStr s]) c' hc'
  rw [ComponentTerm.parseTop, ComponentTerm.parseW_l, hlink]

end Ast

namespace Ast

/-- C1 (corrected): for a stream `l` ++ inline-component ++ literal-Location,
the inline-term parse does NOT yield a Link carrying that Location — it fails
with the location error, because `Component::parse` (whose peek set includes
`/` and `@` via `ComponentTerm::peek`) greedily swallows the trailing literal
location into the link target, leaving nothing for `Inlinable<Location>::parse`.
Consequently a successfully parsed Link can obtain its location only from a
`$[...]` slot (`Inlinable::inlined`), never from a literal location. -/
theorem link_literal_location_swallowed :
    (∀ (p : Char) (s : String) (ic : List Tok) (c : Component),
      (p = '/' ∨ p = '@') → Component.parseTop ic = .ok (c, []) →
      ComponentTerm.parseTop
        (Tok.ident "l" :: (ic ++ [Tok.punct p, Tok.litStr s])) =
        .error "Expected `/` or `@`") ∧
    (∀ (fuel : Nat) (ts : List Tok) (lk : Link) (r : List Tok),
      Link.parseW (Component.parse fuel) ts = .ok (lk, r) →
      ∃ ir, lk.location = .inlined ir) :=
  ⟨ComponentTerm.parseTop_link_literal_fails, Link.parseW_location_inlined⟩

/-- C1 counterexample: `"a"` is a valid inline component (parsed fully) and
`/ "x"` a valid literal Location, yet `l "a" / "x"` fails to parse as an
inline term instead of yielding the claimed Link. -/
theorem link_literal_location_counterexample :
    Component.parseTop [Tok.litStr "a"] =
      .ok (Component.mk [.plain (.text ⟨"a"⟩)], []) ∧
    Location.parseTop [Tok.punct '/', Tok.litStr "x"] =
      .ok (.internal ⟨"x"⟩, []) ∧
    ComponentTerm.parseTop
      [Tok.ident "l", Tok.litStr "a", Tok.punct '/', Tok.litStr "x"] =
      .error "Expected `/` or `@`" := ⟨rfl, rfl, rfl⟩

/-- C1 witness: the amended theorem applied at the concrete stream
`l "a" / "x"` and at a concrete slot-link parse. -/
theorem link_literal_location_swallowed_witness :
    ComponentTerm.parseTop
      [Tok.ident "l", Tok.litStr "a", Tok.punct '/', Tok.litStr "x"] =
      .error "Expected `/` or `@`" ∧
    ∃ ir, (Link.mk (Component.mk [.plain (.text ⟨"a"⟩)])
      (.inlined ⟨[Tok.litStr "z"]⟩)).location = .inlined ir :=
  ⟨link_literal_location_swallowed.1 '/' "x" [Tok.litStr "a"]
    (Component.mk [.plain (.text ⟨"a"⟩)]) (Or.inl rfl) rfl,
   link_literal_location_swallowed.2 5
    [Tok.ident "l", Tok.litStr "a", Tok.punct '$', Tok.bracket [Tok.litStr "z"]]
    (Link.mk (Component.mk [.plain (.text ⟨"a"⟩)])
      (.inlined ⟨[Tok.litStr "z"]⟩)) [] rfl⟩

end Ast

namespace Ast

/-- C6: parenthesized groups are flattened: `"a" ("b" "c")` parses to the
three text terms `"a"`, `"b"`, `"c"` in order, and in general a group's
parsed terms are spliced (`child.terms ++ rest.terms`) into the parent
sequence — no parenthesis node exists in the result. -/
theorem paren_groups_flattened :
    (Component.parseTop
      [Tok.litStr "a", Tok.paren [Tok.litStr "b", Tok.litStr "c"]] =
      .ok (Component.mk [.plain (.text ⟨"a"⟩), .plain (.text ⟨"b"⟩),
        .plain (.text ⟨"c"⟩)], [])) ∧
    (∀ (fuel : Nat) (g rest : List Tok) (child c : Component) (r : List Tok),
      Component.parse fuel g = .ok (child, []) →
      Component.parse fuel rest = .ok (c, r) →
      Component.parse (fuel + 1) (Tok.paren g :: rest) =
        .ok (.mk (child.terms ++ c.terms), r)) := by
  constructor
  · rfl
  · intro fuel g rest child c r h1 h2
    show Component.parseStep (Component.parse fuel) (Tok.paren g :: rest) =
      .ok (.mk (child.terms ++ c.terms), r)
    unfold Component.parseStep
    rw [if_pos (show Component.peek (Tok.paren g :: rest) = true from rfl)]
    dsimp only
    rw [h1]
    dsimp only
    rw [h2]

/-- C6 witness: the splice property applied at `("b") "c"`. -/
theorem paren_groups_flattened_witness :
    Component.parse 4 [Tok.paren [Tok.litStr "b"], Tok.litStr "c"] =
      .ok (.mk [.plain (.text ⟨"b"⟩), .plain (.text ⟨"c"⟩)], []) :=
  paren_groups_flattened.2 3 [Tok.litStr "b"] [Tok.litStr "c"]
    (Component.mk [.plain (.text ⟨"b"⟩)])
    (Component.mk [.plain (.text ⟨"c"⟩)]) [] rfl rfl

/-- C8: the grammar is determinate — at each of the three peek-directed
choice points (blocking `p`/`img`; the six inline-term alternatives;
location `/` vs `@`) at most one alternative's peek is true on any stream. -/
theorem grammar_determinate (ts : List Tok) :
    (([Paragraph.peek ts, Image.peek ts].count true) ≤ 1) ∧
    (([Text.peek ts, Location.peek ts, Bold.peek ts, Italic.peek ts,
       Preformatted.peek ts, Link.peek ts].count true) ≤ 1) ∧
    (([InternalLoc.peek ts, Url.peek ts].count true) ≤ 1) := by
  cases ts with
  | nil => exact ⟨by decide, by decide, by decide⟩
  | cons t rest =>
    cases t with
    | ident s =>
      refine ⟨?_, ?_, by show ([false, false].count true) ≤ 1; decide⟩
      · show ([(s == "p"), (s == "img")].count true) ≤ 1
        by_cases hp : s = "p"
        · subst hp; decide
        · rw [beq_eq_false_iff_ne.mpr hp]
          cases h2 : (s == "img") <;> decide
      · show ([false, false, (s == "b"), (s == "i"), (s == "c"),
          (s == "l")].count true) ≤ 1
        by_cases hb : s = "b"
        · subst hb; decide
        · rw [beq_eq_false_iff_ne.mpr hb]
          by_cases hi : s = "i"
          · subst hi; decide
          · rw [beq_eq_false_iff_ne.mpr hi]
            by_cases hc : s = "c"
            · subst hc; decide
            · rw [beq_eq_false_iff_ne.mpr hc]
              cases hl : (s == "l") <;> decide
    | litStr s =>
      refine ⟨?_, ?_, ?_⟩
      · show ([false, false].count true) ≤ 1
        decide
      · show ([true, false, false, false, false, false].count true) ≤ 1
        decide
      · show ([false, false].count true) ≤ 1
        decide
    | punct c =>
      refine ⟨by show ([false, false].count true) ≤ 1; decide, ?_, ?_⟩
      · show ([false, ((c == '/') || (c == '@')), false, false, false,
          false].count true) ≤ 1
        cases h : ((c == '/') || (c == '@')) <;> decide
      · show ([(c == '/'), (c == '@')].count true) ≤ 1
        by_cases hc : c = '/'
        · subst hc; decide
        · rw [beq_eq_false_iff_ne.mpr hc]
          cases h2 : (c == '@') <;> decide
    | paren g =>
      refine ⟨?_, ?_, ?_⟩
      · show ([false, false].count true) ≤ 1
        decide
      · show ([false, false, false, false, false, false].count true) ≤ 1
        decide
      · show ([false, false].count true) ≤ 1
        decide
    | bracket g =>
      refine ⟨?_, ?_, ?_⟩
      · show ([false, false].count true) ≤ 1
        decide
      · show ([false, false, false, false, false, false].count true) ≤ 1
        decide
      · show ([false, false].count true) ≤ 1
        decide

end Ast

namespace Ast

/-- C7 (code bug): `Page::parse`/`Section::parse` consume the field-name
`Ident` in the record loop and then call `Field::parse`, which parses the
name again; a grammar-conformant record (`title: "T" body: p "x"`, each
field once) therefore fails with "expected identifier" at the colon, for
pages and sections alike.  Only inputs that repeat each keyword
(`title title : "T" ...`) parse, and the missing-field /
already-declared errors fire only on that doubled-keyword form. -/
theorem record_field_reparse_bug :
    Page.parseTop [Tok.ident "title", Tok.punct ':', Tok.litStr "T",
      Tok.ident "body", Tok.punct ':', Tok.ident "p", Tok.litStr "x"] =
      .error "expected identifier" ∧
    Section.parseTop [Tok.ident "id", Tok.punct ':', Tok.litStr "s1"] =
      .error "expected identifier" ∧
    Page.parseTop [Tok.ident "title", Tok.ident "title", Tok.punct ':',
      Tok.litStr "T", Tok.ident "body", Tok.ident "body", Tok.punct ':',
      Tok.ident "p", Tok.litStr "x"] =
      .ok ⟨"T", ⟨[.paragraph ⟨Component.mk [.plain (.text ⟨"x"⟩)]⟩]⟩, none⟩ ∧
    Page.parseTop [] = .error "missing page title" ∧
    Page.parseTop [Tok.ident "title", Tok.ident "title", Tok.punct ':',
      Tok.litStr "T"] = .error "missing page body" ∧
    Page.parseTop [Tok.ident "title", Tok.ident "title", Tok.punct ':',
      Tok.litStr "T", Tok.ident "title"] =
      .error "page title already declared" :=
  ⟨rfl, rfl, rfl, rfl, rfl, rfl⟩

end Ast
